import Mathlib

set_option maxHeartbeats 1000000

/-!
Verification of the header-rewriting engine of `pyannotate`
(`src/pyannotate/annotate_headers.py`).

Python strings are modelled as `List Char` (`Str`); Python's string
operations (`strip`, `lower`, `splitlines`, `split("\n")`, `replace`,
`find`/`rfind`, slicing) are defined below over that representation.
`lower` and the whitespace predicate model Python's behaviour on the
ASCII range plus the common Unicode whitespace/newline code points.
File contents are `Str`; line lists are `List Str`.  Fallible I/O
(exceptions `OSError` / `UnicodeDecodeError`) is modelled with `Except`.
-/

/-- Python strings, modelled as lists of characters. -/
abbrev Str := List Char

/-- Convert a Lean string literal to the `Str` model. -/
def s (x : String) : Str := x.data

/-- Whitespace predicate modelling Python's `str.isspace` / bare `str.strip()`
on the ASCII range plus the common Unicode whitespace code points. -/
def isPySpace (c : Char) : Bool :=
  c = ' ' || c = '\t' || c = '\n' || c = '\r' || c.toNat = 0x0b || c.toNat = 0x0c ||
  c.toNat = 0x1c || c.toNat = 0x1d || c.toNat = 0x1e || c.toNat = 0x1f ||
  c.toNat = 0x85 || c.toNat = 0xa0 || c.toNat = 0x1680 ||
  (0x2000 <= c.toNat && c.toNat <= 0x200a) ||
  c.toNat = 0x2028 || c.toNat = 0x2029 || c.toNat = 0x202f ||
  c.toNat = 0x205f || c.toNat = 0x3000

/-- Python `str.strip()` (no argument): drop whitespace from both ends. -/
def pyStrip (t : Str) : Str :=
  ((t.dropWhile isPySpace).reverse.dropWhile isPySpace).reverse

/-- Python `str.rstrip("\n")`: drop trailing newline characters. -/
def rstripNL (t : Str) : Str :=
  (t.reverse.dropWhile (fun c => c = '\n')).reverse

/-- Python `str.lower()`, modelled on the ASCII range. -/
def toLower (t : Str) : Str :=
  t.map fun c => if 'A' ≤ c && c ≤ 'Z' then Char.ofNat (c.toNat + 32) else c

/-- The newline character as a one-element `Str`. -/
def nl : Str := ['\n']

/-- Python `"\n".join(lines)`. -/
def joinNL : List Str → Str
  | [] => []
  | [l] => l
  | l :: rest => l ++ '\n' :: joinNL rest

/-- Python `str.split("\n")`; the result is always non-empty. -/
def splitOnNL : Str → List Str
  | [] => [[]]
  | c :: rest =>
    match splitOnNL rest with
    | [] => [[]]
    | l :: ls => if c = '\n' then [] :: l :: ls else (c :: l) :: ls

/-- Line-boundary characters recognised by Python `str.splitlines`. -/
def isLineBoundary (c : Char) : Bool :=
  c = '\n' || c = '\r' || c.toNat = 0x0b || c.toNat = 0x0c || c.toNat = 0x1c ||
  c.toNat = 0x1d || c.toNat = 0x1e || c.toNat = 0x85 ||
  c.toNat = 0x2028 || c.toNat = 0x2029

/-- Worker for `splitlines`: `cur` is the reversed current line.  A `\r\n`
pair is one boundary. -/
def splitlinesAux (cur : Str) : Str → List Str
  | [] => if cur = [] then [] else [cur.reverse]
  | '\r' :: '\n' :: rest => cur.reverse :: splitlinesAux [] rest
  | c :: rest =>
    if isLineBoundary c then cur.reverse :: splitlinesAux [] rest
    else splitlinesAux (c :: cur) rest

/-- Python `str.splitlines()`. -/
def splitlines (t : Str) : List Str := splitlinesAux [] t

/-- First index at which `needle` occurs in `hay` (Python `str.find` on success). -/
def strFindIdx (hay needle : Str) : Option Nat :=
  if needle.isPrefixOf hay then some 0
  else
    match hay with
    | [] => none
    | _ :: t => (strFindIdx t needle).map (· + 1)

/-- Python `needle in hay` substring containment. -/
def containsStr (hay needle : Str) : Bool := (strFindIdx hay needle).isSome

/-- Last index at which `needle` occurs in `hay` (Python `str.rfind` on success). -/
def strRFind (hay needle : Str) : Option Nat :=
  match hay with
  | [] => if needle = [] then some 0 else none
  | c :: t =>
    match strRFind t needle with
    | some j => some (j + 1)
    | none => if needle.isPrefixOf (c :: t) then some 0 else none

/-- Fuel-indexed worker for `replaceAll`; the fuel bounds the number of loop
steps (one character or one match consumed per step). -/
def replaceAllFuel (old new : Str) : Nat → Str → Str
  | 0, t => t
  | fuel + 1, t =>
    if old = [] then t
    else if old.isPrefixOf t then
      new ++ replaceAllFuel old new fuel (t.drop old.length)
    else
      match t with
      | [] => []
      | c :: t2 => c :: replaceAllFuel old new fuel t2

/-- Python `str.replace(old, new)` with non-empty `old`:
non-overlapping replacement, left to right. -/
def replaceAll (t old new : Str) : Str := replaceAllFuel old new t.length t

/-- Python `str.endswith`. -/
def strEndsWith (t suffix : Str) : Bool := suffix.isSuffixOf t

/-- Python `str.startswith`. -/
def strStartsWith (t p : Str) : Bool := p.isPrefixOf t

/-- Model of Python universal-newline translation on read:
`\r\n` and bare `\r` become `\n`. -/
def translateNL : Str → Str
  | [] => []
  | '\r' :: '\n' :: rest => '\n' :: translateNL rest
  | c :: rest => (if c = '\r' then '\n' else c) :: translateNL rest

/-- Model of `f.readlines()` on a text-mode file whose translated content is
given, as the list of lines (line terminators dropped; a trailing newline
does not produce a final empty line). -/
def pyReadLines (content : Str) : List Str :=
  let t := translateNL content
  if t = [] then []
  else if t.getLast? = some '\n' then (splitOnNL t).dropLast
  else splitOnNL t

/-! ## Embedding of `src/pyannotate/annotate_headers.py` -/

/-- `_strip_leading_blank_lines`: remove any leading blank lines. -/
def strip_leading_blank_lines (lines : List Str) : List Str :=
  lines.dropWhile fun l => pyStrip l = []

/-- `_compose_with_header_block`: compose a full file from a header block and
the remaining body lines. -/
def compose_with_header_block (header_block : Str) (body_lines : List Str) : Str :=
  let hb := rstripNL header_block
  let body := strip_leading_blank_lines body_lines
  let result := if body ≠ [] then hb ++ '\n' :: '\n' :: joinNL body else hb ++ nl
  if strEndsWith result nl then result else result ++ nl

/-- `_process_empty_file`. -/
def process_empty_file (header_block : Str) : Str := header_block ++ nl

/-- The header-indicator prefixes of `_has_existing_header`. -/
def headerIndicators (comment_start : Str) : List Str :=
  [ comment_start ++ s " File:"
  , comment_start ++ s "File:"
  , comment_start ++ s " file:"
  , comment_start ++ s " Filename:"
  , comment_start ++ s " @file"
  , comment_start ++ s " Source:"
  , comment_start ++ s " Path:" ]

/-- `_has_existing_header`: look for a header indicator in the first two lines
at or after `start_index`. -/
def has_existing_header (lines : List Str) (comment_start : Str)
    (start_index : Nat) : Bool :=
  if lines.drop start_index = [] then false
  else
    (List.range' start_index (min (start_index + 2) lines.length - start_index)).any
      fun i => (headerIndicators comment_start).any
        fun ind => strStartsWith (pyStrip (lines.getD i [])) ind

/-- The path keywords of `_merge_headers`. -/
def mergePathKeywords : List Str := [s "file:", s "filename:", s "path:", s "@file"]

/-- A line of an existing header is a file-path line in `_merge_headers` when
one of the path keywords occurs in the lower-cased line with first occurrence
before index 15. -/
def isFilePathLine (line : Str) : Bool :=
  mergePathKeywords.any fun kw =>
    match strFindIdx (toLower line) kw with
    | some i => decide (i < 15)
    | none => false

/-- The metadata-text extraction of `_merge_headers` on one stripped line:
drop the comment-start marker, strip, and trim everything from the last
occurrence of the comment-end marker on. -/
def mergeMetaText (comment_start comment_end line : Str) : Str :=
  let mt0 := pyStrip ((pyStrip line).drop comment_start.length)
  if comment_end ≠ [] ∧ containsStr mt0 comment_end = true then
    pyStrip (mt0.take ((strRFind mt0 comment_end).getD 0))
  else mt0

/-- The metadata reformatting step of `_merge_headers` applied to one line of
the existing header: returns the rebuilt comment line when the line is kept as
metadata. -/
def mergeMetaLine (comment_start comment_end line : Str) : Option Str :=
  if pyStrip line = [] then none
  else if isFilePathLine (pyStrip line) then none
  else if strStartsWith (pyStrip line) comment_start then
    let mt := mergeMetaText comment_start comment_end line
    if mt ≠ [] then
      some (if comment_end ≠ [] then
              comment_start ++ ' ' :: mt ++ ' ' :: comment_end
            else comment_start ++ ' ' :: mt)
    else none
  else none

/-- The file-path extraction step of `_merge_headers`: drop the `File:`
keyword, strip, and trim one trailing comment-end marker. -/
def mergeFilePath (new_header comment_end : Str) : Str :=
  let file_path0 := pyStrip (replaceAll new_header (s "File:") [])
  if comment_end ≠ [] ∧ strEndsWith file_path0 comment_end then
    pyStrip (file_path0.take (file_path0.length - comment_end.length))
  else file_path0

/-- The standard header line built by `_merge_headers`. -/
def standardHeaderLine (comment_start comment_end file_path : Str) : Str :=
  comment_start ++ s " File: " ++ file_path ++
    (if comment_end ≠ [] then ' ' :: comment_end else [])

/-- `_merge_headers`: merge an existing header with the new single-line header
content. -/
def merge_headers (existing_header new_header comment_start comment_end : Str) : Str :=
  let file_path := mergeFilePath new_header comment_end
  let existing_lines := splitOnNL (pyStrip existing_header)
  let standard_header := standardHeaderLine comment_start comment_end file_path
  let metadata_lines := existing_lines.filterMap (mergeMetaLine comment_start comment_end)
  if metadata_lines ≠ [] then standard_header ++ '\n' :: joinNL metadata_lines
  else standard_header

/-- The loop of `_remove_existing_header` that finds the last header line:
scan indices `i` from `start+1` while `i < stop`, remembering in `acc` the
last index whose line was blank or started with the comment marker, and
stopping at the first other line. -/
def headerEndAux (lines : List Str) (comment_start : Str) :
    Nat → Nat → Nat → Nat
  | 0, _, acc => acc
  | count + 1, i, acc =>
    let l := pyStrip (lines.getD i [])
    if l = [] ∨ strStartsWith l comment_start then
      headerEndAux lines comment_start count (i + 1) i
    else acc

/-- `_remove_existing_header`: remove the existing header if present. -/
def remove_existing_header (lines : List Str) (comment_start : Str)
    (start_index : Nat) : List Str :=
  if has_existing_header lines comment_start start_index then
    let header_end :=
      headerEndAux lines comment_start
        (min lines.length (start_index + 10) - (start_index + 1))
        (start_index + 1) start_index
    lines.take start_index ++ lines.drop (header_end + 1)
  else lines

/-- The comment markers tried by `_detect_header_pattern`, in order. -/
def detectorMarkers : List (Str × Str) :=
  [ (s "#", []), (s "//", []), (s "/*", s "*/"), (s "<!--", s "-->")
  , (s "%", []), (s ";", []), (s "--", []), (s "REM", []) ]

/-- Outer keyword filter of `_detect_header_pattern`. -/
def detectOuterKeywords : List Str :=
  [s "file", s "source", s "path", s "filename", s "@file"]

/-- Inner keyword patterns of `_detect_header_pattern`. -/
def detectInnerKeywords : List Str :=
  [s "file:", s "source:", s "path:", s "filename:", s "@file"]

/-- One line of the marker scan in `_detect_header_pattern`. -/
def detectTryLine (start endMark line : Str) : Option (Str × Str × Str) :=
  if strStartsWith line start ∧
      detectOuterKeywords.any (fun kw => containsStr (toLower line) kw) then
    let text := pyStrip (line.drop start.length)
    (detectInnerKeywords.findSome? fun kw =>
        (strFindIdx (toLower text) kw).map fun idx =>
          text.take (idx + kw.length)).map
      fun pat => (start, endMark, pat)
  else none

/-- `_detect_header_pattern`, as a function of the file content it reads:
strip the first 10 lines, then try each comment marker against each non-empty
line, returning the detected `(comment start, comment end, header pattern)`.
The source reads the file from disk; since `process_file` calls it right after
reading the same file, it is modelled on that content. -/
def detect_header_pattern (content : Str) : Option (Str × Str × Str) :=
  let lines := ((pyReadLines content).take 10).map pyStrip
  if lines = [] then none
  else
    detectorMarkers.findSome? fun m =>
      lines.findSome? fun line =>
        if line = [] then none else detectTryLine m.1 m.2 line

/-- `_process_shebang_file`: keep the shebang first, process the rest. -/
def process_shebang_file (lines : List Str) (header_block comment_start : Str) : Str :=
  let shebang := lines.headD []
  let remaining_lines := remove_existing_header lines.tail comment_start 0
  let rest := compose_with_header_block header_block remaining_lines
  let result := shebang ++ '\n' :: rest
  if strEndsWith result nl then result else result ++ nl

/-- The declaration test of `_process_xml_like_file` on one line. -/
def isXmlDeclLine (line : Str) : Bool :=
  let t := toLower (pyStrip line)
  strStartsWith t (s "<?xml") || strStartsWith t (s "<!doctype") ||
  strStartsWith t (s "<?php") || strStartsWith t (s "<%") ||
  strStartsWith t (s "<%=") || strStartsWith t (s "<%@") ||
  strStartsWith t (s "<script setup") || strStartsWith t (s "<template")

/-- `_process_xml_like_file`: preserve leading declaration lines, then place
the header. -/
def process_xml_like_file (lines : List Str) (header_block comment_start : Str) : Str :=
  if lines = [] then process_empty_file header_block
  else
    let declarations := lines.takeWhile isXmlDeclLine
    let content_start := declarations.length
    if declarations ≠ [] then
      let remaining_lines :=
        remove_existing_header (lines.drop content_start) comment_start 0
      let composed := compose_with_header_block header_block remaining_lines
      let result := joinNL declarations ++ '\n' :: composed
      if strEndsWith result nl then result else result ++ nl
    else
      compose_with_header_block header_block
        (remove_existing_header lines comment_start 0)

/-- `_process_web_framework_file`, as a function of the file suffix
(lower-cased) and lines. -/
def process_web_framework_file (suffixLower : Str) (lines : List Str)
    (header_block comment_start : Str) : Str :=
  if suffixLower = s ".vue" ∨ suffixLower = s ".svelte" then
    let has_template :=
      (lines.take 10).any fun l => containsStr (toLower l) (s "<template")
    let has_script_setup :=
      (lines.take 15).any fun l => containsStr (toLower l) (s "<script setup")
    if has_template || has_script_setup then
      process_xml_like_file lines header_block comment_start
    else
      compose_with_header_block header_block
        (remove_existing_header lines comment_start 0)
  else
    compose_with_header_block header_block
      (remove_existing_header lines comment_start 0)

/-- The suffix set of `_is_special_xml_file` (compared against
`file_path.suffix.lower()`). -/
def is_special_xml_file (suffixLower : Str) : Bool :=
  [ s ".html", s ".htm", s ".xhtml", s ".xml", s ".ui", s ".qrc", s ".ts"
  , s ".vue", s ".svelte", s ".astro", s ".wxml", s ".blade.php"
  , s ".mdx", s ".jsx", s ".tsx" ].contains suffixLower

/-- The metadata keywords of `_collect_metadata_lines`. -/
def metadataKeywords : List Str :=
  [s "author:", s "version:", s "copyright:", s "created:", s "description:"]

/-- Is a stripped line a metadata keyword line? -/
def isMetadataKwLine (comment_start line : Str) : Bool :=
  strStartsWith line comment_start &&
    metadataKeywords.any fun kw => containsStr (toLower line) kw

/-- Loop of `_collect_metadata_lines` over the (at most 10) scanned lines,
with the `in_metadata_block` flag. -/
def collectMetaAux (comment_start : Str) (inBlock : Bool) : List Str → List Str
  | [] => []
  | l :: rest =>
    let ls := pyStrip l
    if ls = [] then collectMetaAux comment_start inBlock rest
    else if isMetadataKwLine comment_start ls then
      ls :: collectMetaAux comment_start true rest
    else if inBlock ∧ strStartsWith ls comment_start then
      ls :: collectMetaAux comment_start true rest
    else if inBlock then []
    else collectMetaAux comment_start inBlock rest

/-- `_collect_metadata_lines`: collect metadata lines from the first 10 lines. -/
def collect_metadata_lines (lines : List Str) (comment_start : Str) : List Str :=
  collectMetaAux comment_start false (lines.take 10)

/-- The loop capturing up to 10 existing header lines in
`_determine_new_content` (raw lines are kept; blank lines are skipped; the
scan stops at the first non-blank non-comment line). -/
def captureHeaderAux (comment_start : Str) : List Str → List Str
  | [] => []
  | l :: rest =>
    let ls := pyStrip l
    if ls ≠ [] ∧ strStartsWith ls comment_start then
      l :: captureHeaderAux comment_start rest
    else if ls = [] then captureHeaderAux comment_start rest
    else []

/-- `_determine_new_content`: compute the new content for a file, given its
suffix (lower-cased), current content, comment markers and header block.
`none` models Python's `None` (file left untouched). -/
def determine_new_content (suffixLower : Str) (content : Str)
    (comment_start comment_end header_block : Str) : Option Str :=
  let lines := splitlines content
  let metadata_lines := collect_metadata_lines lines comment_start
  if lines = [] then some (process_empty_file header_block)
  else if strStartsWith (lines.headD []) (s "#!") then
    some (process_shebang_file lines header_block comment_start)
  else if is_special_xml_file suffixLower then
    some (process_xml_like_file lines header_block comment_start)
  else if suffixLower = s ".vue" ∨ suffixLower = s ".svelte" ∨
      suffixLower = s ".astro" then
    some (process_web_framework_file suffixLower lines header_block comment_start)
  else if has_existing_header lines comment_start 0 then
    match detect_header_pattern content with
    | some (detected_start, _, _) =>
      let header_lines := captureHeaderAux comment_start (lines.take 10)
      let existing_header := joinNL header_lines
      let header_block_lines := splitOnNL header_block
      if header_block_lines.length > 1 then
        some (compose_with_header_block header_block
          (remove_existing_header lines detected_start 0))
      else
        let first_header_line := header_block_lines.headD []
        let header_content :=
          if strStartsWith first_header_line comment_start then
            let hc := pyStrip (first_header_line.drop comment_start.length)
            if comment_end ≠ [] ∧ strEndsWith hc comment_end then
              pyStrip (hc.take (hc.length - comment_end.length))
            else hc
          else first_header_line
        let merged_header :=
          merge_headers existing_header header_content comment_start comment_end
        some (compose_with_header_block merged_header
          (remove_existing_header lines detected_start 0))
    | none => none
  else if metadata_lines ≠ [] then
    let combined_header := header_block ++ '\n' :: joinNL metadata_lines
    let remaining_lines := lines.filter
      fun l => decide (pyStrip l ∉ metadata_lines.map pyStrip)
    some (compose_with_header_block combined_header remaining_lines)
  else if pyStrip content ≠ [] then
    some (compose_with_header_block header_block (splitlines content))
  else some (process_empty_file header_block)

/-! ## Driver model: `process_file` and `walk_directory`

Exceptions (`OSError`, `UnicodeDecodeError`) are modelled with `Except`:
each fallible filesystem operation of the source is represented by its
outcome, and the source's `try`/`except` blocks by matching on that outcome. -/

/-- The Python exception classes caught by the driver. -/
inductive PyErr where
  | osError
  | unicodeDecodeError
deriving DecidableEq, Repr

/-- The per-file statuses reported by `process_file`. -/
inductive PStatus where
  | modified
  | skipped
  | unchanged
deriving DecidableEq, Repr

/-- `IGNORED_FILES` from the source. -/
def ignoredFiles : List Str :=
  [ s ".prettierrc", s ".eslintrc", s ".babelrc", s ".stylelintrc"
  , s ".browserslistrc", s ".nvmrc", s ".npmrc", s ".yarnrc", s ".editorconfig"
  , s ".gitattributes", s ".gitmodules", s ".hgignore", s ".hgsub"
  , s ".hgsubstate", s ".hgtags", s "requirements.txt", s "requirements-dev.txt"
  , s "package-lock.json", s "yarn.lock", s "pnpm-lock.yaml", s "Pipfile.lock"
  , s "poetry.lock", s "Cargo.lock", s "go.sum", s "Procfile", s "Brewfile"
  , s "Vagrantfile", s "Rakefile", s ".env.example", s ".env.local"
  , s ".env.development", s ".env.production", s "LICENSE", s "COPYING"
  , s "NOTICE", s "AUTHORS", s "CONTRIBUTORS", s "CHANGELOG", s "HISTORY"
  , s ".vscode/settings.json", s ".idea/workspace.xml", s ".idea/modules.xml" ]

/-- `BINARY_EXTENSIONS` from the source. -/
def binaryExtensions : List Str :=
  [ s ".exe", s ".dll", s ".so", s ".dylib", s ".bin", s ".a", s ".lib"
  , s ".obj", s ".o", s ".png", s ".jpg", s ".jpeg", s ".gif", s ".ico"
  , s ".bmp", s ".tiff", s ".webp", s ".avif", s ".mp3", s ".wav", s ".ogg"
  , s ".flac", s ".aac", s ".m4a", s ".mp4", s ".avi", s ".mov", s ".mkv"
  , s ".webm", s ".flv", s ".wmv", s ".zip", s ".tar", s ".gz", s ".bz2"
  , s ".xz", s ".7z", s ".rar", s ".pdf", s ".doc", s ".docx", s ".xls"
  , s ".xlsx", s ".ppt", s ".pptx", s ".qm", s ".qmlc", s ".jsc", s ".pyc"
  , s ".pyo", s ".pyd", s ".class", s ".jar", s ".war", s ".whl", s ".db"
  , s ".sqlite", s ".sqlite3", s ".mdb", s ".ttf", s ".otf", s ".woff"
  , s ".woff2", s ".eot" ]

/-- `SPECIAL_FILE_COMMENTS` from the source: special file names mapped to
their `(comment_start, comment_end)` pair. -/
def specialFileComments : List (Str × (Str × Str)) :=
  [ (s ".gitignore", (s "#", [])), (s ".dockerignore", (s "#", []))
  , (s ".env", (s "#", [])), (s "Makefile", (s "#", []))
  , (s "CMakeLists.txt", (s "#", [])), (s ".clang-format", (s "#", []))
  , (s ".editorconfig", (s "#", [])), (s ".gitlab-ci.yml", (s "#", []))
  , (s ".travis.yml", (s "#", [])), (s ".coveragerc", (s "#", []))
  , (s ".flake8", (s "#", [])), (s ".gitattributes", (s "#", []))
  , (s ".gitmodules", (s "#", [])), (s ".hgignore", (s "#", []))
  , (s ".hgsub", (s "#", [])), (s ".hgsubstate", (s "#", []))
  , (s ".hgtags", (s "#", [])), (s ".npmignore", (s "#", []))
  , (s "Dockerfile", (s "#", [])), (s "docker-compose.yml", (s "#", []))
  , (s "docker-compose.yaml", (s "#", [])), (s "Pipfile", (s "#", []))
  , (s "Pipfile.lock", (s "#", [])), (s "pyproject.toml", (s "#", []))
  , (s "setup.cfg", (s "#", [])), (s "setup.py", (s "#", []))
  , (s "requirements.txt", (s "#", [])), (s "requirements-dev.txt", (s "#", []))
  , (s "package.json", (s "//", [])), (s "tsconfig.json", (s "//", []))
  , (s "jsconfig.json", (s "//", [])), (s ".eslintrc.json", (s "//", []))
  , (s ".prettierrc", (s "//", [])), (s ".stylelintrc", (s "//", []))
  , (s ".babelrc", (s "//", [])), (s ".browserslistrc", (s "#", []))
  , (s ".nvmrc", (s "#", [])), (s ".npmrc", (s "#", []))
  , (s ".yarnrc", (s "#", [])), (s "yarn.lock", (s "#", []))
  , (s "package-lock.json", (s "//", [])), (s "pnpm-lock.yaml", (s "#", []))
  , (s "composer.json", (s "//", [])), (s "Gemfile", (s "#", []))
  , (s "Gemfile.lock", (s "#", [])), (s ".rubocop.yml", (s "#", []))
  , (s "go.mod", (s "//", [])), (s "go.sum", (s "//", []))
  , (s "Cargo.toml", (s "#", [])), (s "Cargo.lock", (s "#", []))
  , (s ".htaccess", (s "#", [])), (s "nginx.conf", (s "#", []))
  , (s "webpack.config.js", (s "//", [])), (s "rollup.config.js", (s "//", []))
  , (s "vite.config.js", (s "//", [])), (s "next.config.js", (s "//", []))
  , (s "nuxt.config.js", (s "//", [])), (s "svelte.config.js", (s "//", []))
  , (s "astro.config.mjs", (s "//", [])), (s "tailwind.config.js", (s "//", []))
  , (s "postcss.config.js", (s "//", [])), (s "Rakefile", (s "#", []))
  , (s ".clang-tidy", (s "#", [])), (s ".github", (s "#", []))
  , (s ".drone.yml", (s "#", [])), (s ".circleci", (s "#", []))
  , (s ".appveyor.yml", (s "#", [])) ]

/-- `pathlib.Path.suffix` on a file name: the final dot-suffix, empty for
names that start with their only dot or end in a dot. -/
def pySuffix (name : Str) : Str :=
  match strFindIdx name.reverse (s ".") with
  | some r =>
    let i := name.length - 1 - r
    if 0 < i ∧ i < name.length - 1 then name.drop i else []
  | none => []

/-- Input model for `process_file` on one file: the file's name (final path
component), the outcomes of the filesystem operations it performs, and the
results of its collaborators (`_get_comment_style`, `_create_header`). -/
structure PFInput where
  isFile : Bool
  name : Str
  cfgIgnoredFiles : List Str
  binarySniff : Bool
  commentStyle : Option (Str × Str)
  readResult : Except PyErr Str
  headerBlock : Str
  writeResult : Except PyErr Unit
  dryRun : Bool

/-- `is_binary`, given the suffix (lower-cased) and the outcome of the
null-byte sniff (which is `true` as well when opening the file raises). -/
def is_binary (suffixLower : Str) (sniff : Bool) : Bool :=
  binaryExtensions.contains suffixLower || sniff

/-- `_should_skip_path`. -/
def should_skip_path (inp : PFInput) : Bool :=
  let sfx := toLower (pySuffix inp.name)
  if !inp.isFile then true
  else if sfx ∈ [s ".md", s ".markdown", s ".json"] ∨
      (toLower inp.name = s "license" ∧ pySuffix inp.name = []) then true
  else if inp.name ∈ ignoredFiles then true
  else if inp.name ∈ inp.cfgIgnoredFiles then true
  else if sfx ∈ binaryExtensions ∨ is_binary sfx inp.binarySniff = true then true
  else false

/-- `process_file`: returns the reported status and whether the file was
written. -/
def process_file (inp : PFInput) : PStatus × Bool :=
  if should_skip_path inp then (.skipped, false)
  else
    match inp.commentStyle with
    | none => (.skipped, false)
    | some (comment_start, comment_end) =>
      match inp.readResult with
      | .error _ => (.skipped, false)
      | .ok content =>
        match determine_new_content (toLower (pySuffix inp.name)) content
            comment_start comment_end inp.headerBlock with
        | some new_content =>
          if new_content ≠ content then
            if inp.dryRun then (.modified, false)
            else
              match inp.writeResult with
              | .ok _ => (.modified, true)
              | .error _ => (.skipped, false)
          else (.unchanged, false)
        | none => (.unchanged, false)

/-- Run statistics of `walk_directory`. -/
structure Stats where
  modified : Nat
  skipped : Nat
  unchanged : Nat
deriving DecidableEq, Repr

/-- Pointwise addition of statistics. -/
def statsAdd (a b : Stats) : Stats :=
  ⟨a.modified + b.modified, a.skipped + b.skipped, a.unchanged + b.unchanged⟩

/-- The zero statistics. -/
def statsZero : Stats := ⟨0, 0, 0⟩

/-- One file outcome as statistics. -/
def statsOfStatus : PStatus → Stats
  | .modified => ⟨1, 0, 0⟩
  | .skipped => ⟨0, 1, 0⟩
  | .unchanged => ⟨0, 0, 1⟩

/-- A filesystem tree: a directory's `iterdir` either raises (`.error`) or
yields its entries. -/
inductive FSTree where
  | file (inp : PFInput)
  | dir (name : Str) (entries : Except PyErr (List FSTree))

mutual

/-- `walk_directory`: a directory whose listing raises contributes nothing
(the whole loop body sits inside the `try`); otherwise its entries are
processed in order.  The function is total: traversal errors are absorbed,
never propagated. -/
def walk_directory (ignoredDirs : List Str) : FSTree → Stats
  | .file _ => statsZero
  | .dir _ (.error _) => statsZero
  | .dir _ (.ok entries) => walkEntries ignoredDirs entries

/-- The entry loop of `walk_directory`. -/
def walkEntries (ignoredDirs : List Str) : List FSTree → Stats
  | [] => statsZero
  | .file inp :: rest =>
    statsAdd (statsOfStatus (process_file inp).1) (walkEntries ignoredDirs rest)
  | .dir n es :: rest =>
    statsAdd
      (if ignoredDirs.contains n then statsZero
       else walk_directory ignoredDirs (.dir n es))
      (walkEntries ignoredDirs rest)

end

/-! ## Definitions used to state the claims -/

/-- The header-indicator rule as the specification words it ("starts with the
comment-start token immediately followed, with zero or one space and
case-insensitively, by one of the label keywords"), for comparison with the
source's `_has_existing_header`. -/
def specHeaderIndicator (line comment_start : Str) : Bool :=
  let t := toLower (pyStrip line)
  [s "File:", s "Filename:", s "Source:", s "Path:", s "@file"].any fun kw =>
    strStartsWith t (toLower (comment_start ++ kw)) ||
    strStartsWith t (toLower (comment_start ++ ' ' :: kw))

/-- The claim's 15-character path-keyword window applied to the marker-stripped
text of a line, as the claim words it, for comparison with the source's
`_merge_headers` (which applies the window to the whole line). -/
def specKeywordIn15 (strippedText : Str) : Bool :=
  mergePathKeywords.any fun kw =>
    match strFindIdx (toLower strippedText) kw with
    | some i => decide (i < 15)
    | none => false

/-- `needle` occurs in `hay` at position `i`. -/
def occursAtP (needle hay : Str) (i : Nat) : Prop :=
  ∃ u v, hay = u ++ needle ++ v ∧ u.length = i

/-- `t` contains the end marker `ce` twice with only whitespace between the
two occurrences (the "doubled closer" shape, e.g. `*/ */`). -/
def hasDoubledCloser (ce t : Str) : Prop :=
  ∃ u w v, (∀ c ∈ w, isPySpace c = true) ∧ t = u ++ ce ++ w ++ ce ++ v

/-! ## Theorems -/

/-- C7: no removal without a primary indicator: whenever `_has_existing_header`
returns `False`, `_remove_existing_header` returns its input unchanged, even
when later lines start with the comment marker. -/
theorem c7_no_removal_without_indicator (lines : List Str) (cs : Str) (start : Nat)
    (h : has_existing_header lines cs start = false) :
    remove_existing_header lines cs start = lines := by
  unfold remove_existing_header
  simp [h]

/-- Witness for C7 on a concrete file whose later lines do start with the
comment marker. -/
theorem c7_witness :
    has_existing_header [s "x = 1", s "# note", s "# more"] (s "#") 0 = false ∧
    remove_existing_header [s "x = 1", s "# note", s "# more"] (s "#") 0 =
      [s "x = 1", s "# note", s "# more"] :=
  ⟨by decide, c7_no_removal_without_indicator _ _ _ (by decide)⟩

/-- C3, counterexample: the indicator test is not case-insensitive.  The line
`"# FILE: x"` is an indicator under the claim's case-insensitive rule, but
`_has_existing_header` returns `False` on it. -/
theorem c3_counterexample :
    specHeaderIndicator (s "# FILE: x") (s "#") = true ∧
    has_existing_header [s "# FILE: x"] (s "#") 0 = false := by
  decide

/-- C3, amended: `_has_existing_header` returns `True` iff one of the first two
lines at or after the start index, after stripping, starts with one of the
seven exact indicator strings (comment start followed by ` File:`, `File:`,
` file:`, ` Filename:`, ` @file`, ` Source:` or ` Path:`); lines beyond the
first two are never consulted. -/
theorem c3_header_indicator_rule (lines : List Str) (cs : Str) (start : Nat) :
    has_existing_header lines cs start = true ↔
      ∃ i, start ≤ i ∧ i < min (start + 2) lines.length ∧
        ∃ ind ∈ headerIndicators cs,
          strStartsWith (pyStrip (lines.getD i [])) ind = true := by
  unfold has_existing_header
  split
  · rename_i hdrop
    rw [List.drop_eq_nil_iff] at hdrop
    simp only [Bool.false_eq_true, false_iff]
    rintro ⟨i, hi1, hi2, -⟩
    omega
  · rename_i hdrop
    have hlt : start < lines.length := by
      by_contra hc
      exact hdrop (List.drop_eq_nil_iff.mpr (by omega))
    rw [List.any_eq_true]
    constructor
    · rintro ⟨i, hmem, hany⟩
      rw [List.mem_range'_1] at hmem
      rw [List.any_eq_true] at hany
      obtain ⟨ind, hind, hsw⟩ := hany
      exact ⟨i, hmem.1, by omega, ind, hind, hsw⟩
    · rintro ⟨i, h1, h2, ind, hind, hsw⟩
      refine ⟨i, ?_, List.any_eq_true.mpr ⟨ind, hind, hsw⟩⟩
      rw [List.mem_range'_1]
      omega

/-- Ending with a newline is having `'\n'` as last character. -/
theorem strEndsWith_nl_iff (t : Str) :
    strEndsWith t nl = true ↔ t.getLast? = some '\n' := by
  unfold strEndsWith nl
  rw [List.isSuffixOf_iff_suffix]
  constructor
  · rintro ⟨u, rfl⟩
    exact List.getLast?_concat u
  · intro h
    exact ⟨t.dropLast, List.dropLast_append_getLast? '\n' h⟩

/-- Appending a newline makes the result end with a newline. -/
theorem strEndsWith_append_nl (t : Str) : strEndsWith (t ++ nl) nl = true := by
  rw [strEndsWith_nl_iff]
  exact List.getLast?_concat t

/-- Appending a newline when one is missing yields a newline-terminated
string. -/
theorem endsWith_fix (t : Str) :
    strEndsWith (if strEndsWith t nl = true then t else t ++ nl) nl = true := by
  split
  · assumption
  · exact strEndsWith_append_nl _

/-- The assembler's output always ends with a newline. -/
theorem compose_endsWith_nl (hb : Str) (body : List Str) :
    strEndsWith (compose_with_header_block hb body) nl = true :=
  endsWith_fix _

/-- A non-empty list of lines whose head is non-empty joins to a non-empty
string. -/
theorem joinNL_ne_nil {b : List Str} {x : Str} (hx : b.head? = some x)
    (hne : x ≠ []) : joinNL b ≠ [] := by
  cases b with
  | nil => simp at hx
  | cons y rest =>
    simp only [List.head?_cons, Option.some.injEq] at hx
    subst hx
    cases rest with
    | nil => simpa [joinNL] using hne
    | cons z t => simp [joinNL]

/-- The first line surviving `_strip_leading_blank_lines` is not blank. -/
theorem strip_leading_head_not_blank (body : List Str) {x : Str}
    (hx : (strip_leading_blank_lines body).head? = some x) : pyStrip x ≠ [] := by
  have h := List.head?_dropWhile_not (fun l => decide (pyStrip l = [])) body
  unfold strip_leading_blank_lines at hx
  rw [hx] at h
  simpa using h

/-- After stripping leading blank lines, a non-empty body joins to a non-empty
string. -/
theorem strip_leading_joinNL_ne_nil (body : List Str)
    (hne : strip_leading_blank_lines body ≠ []) :
    joinNL (strip_leading_blank_lines body) ≠ [] := by
  obtain ⟨x, hx⟩ := Option.ne_none_iff_exists'.mp
    ((List.head?_eq_none_iff).not.mpr (by simpa using hne) :
      (strip_leading_blank_lines body).head? ≠ none)
  have hxne : x ≠ [] := by
    intro h
    exact strip_leading_head_not_blank body hx (by simp [h, pyStrip])
  exact joinNL_ne_nil hx hxne

/-- Last character of an append with a non-empty right part. -/
theorem getLast?_append_right {α : Type} (a b : List α) (hb : b ≠ []) :
    (a ++ b).getLast? = b.getLast? := by
  rw [List.getLast?_append]
  cases hb' : b.getLast? with
  | none => exact absurd (List.getLast?_eq_none_iff.mp hb') hb
  | some c => rfl

/-- The last line of a list of lines is a suffix of their newline join. -/
theorem joinNL_suffix_getLast (b : List Str) (lst : Str)
    (h : b.getLast? = some lst) : lst <:+ joinNL b := by
  induction b with
  | nil => simp at h
  | cons x rest ih =>
    cases rest with
    | nil =>
      simp only [List.getLast?_singleton, Option.some.injEq] at h
      subst h
      exact List.suffix_rfl
    | cons y t =>
      rw [List.getLast?_cons_cons] at h
      exact (ih h).trans ((List.suffix_cons '\n' _).trans
        (List.suffix_append x ('\n' :: joinNL (y :: t))))

/-- A non-empty suffix determines the last element. -/
theorem getLast?_of_suffix {l1 l2 : List Char} (h : l1 <:+ l2) (hne : l1 ≠ []) :
    l2.getLast? = l1.getLast? := by
  obtain ⟨u, rfl⟩ := h
  exact getLast?_append_right u l1 hne

/-- C2, counterexample: the result of the assembler does not always end with
exactly one trailing newline: with body lines ending in two blank lines the
output ends with two newlines (extra trailing newlines are not trimmed). -/
theorem c2_counterexample :
    compose_with_header_block (s "# h") [s "x", [], []] = s "# h\n\nx\n\n" ∧
    strEndsWith (compose_with_header_block (s "# h") [s "x", [], []])
      (s "\n\n") = true := by
  decide

/-- C2, amended: the assembler strips leading blank lines from the body; for a
non-empty remaining body the result is the newline-trimmed header block, one
blank line, and the body joined with newlines, with a final newline appended
exactly when the joined body does not already end with one; for an empty
remaining body it is the trimmed header block plus a single newline; the
result always ends with a newline, and it ends with exactly one trailing
newline whenever the remaining body is empty or its last line is non-empty
and does not itself end in a newline (trailing newlines are trimmed only from
the header block, not from the body). -/
theorem c2_assembler_contract (hb : Str) (body : List Str) :
    (strip_leading_blank_lines body ≠ [] →
      compose_with_header_block hb body =
        rstripNL hb ++ '\n' :: '\n' :: joinNL (strip_leading_blank_lines body) ++
          (if strEndsWith (joinNL (strip_leading_blank_lines body)) nl = true
           then [] else nl)) ∧
    (strip_leading_blank_lines body = [] →
      compose_with_header_block hb body = rstripNL hb ++ nl) ∧
    strEndsWith (compose_with_header_block hb body) nl = true ∧
    (∀ lst, (strip_leading_blank_lines body).getLast? = some lst → lst ≠ [] →
      lst.getLast? ≠ some '\n' →
      strEndsWith (compose_with_header_block hb body) (s "\n\n") = false) := by
  have key : strip_leading_blank_lines body ≠ [] →
      compose_with_header_block hb body =
        rstripNL hb ++ '\n' :: '\n' :: joinNL (strip_leading_blank_lines body) ++
          (if strEndsWith (joinNL (strip_leading_blank_lines body)) nl = true
           then [] else nl) := by
    intro hbne
    have hjne : joinNL (strip_leading_blank_lines body) ≠ [] :=
      strip_leading_joinNL_ne_nil body hbne
    simp only [compose_with_header_block]
    rw [if_pos hbne]
    by_cases hj : strEndsWith (joinNL (strip_leading_blank_lines body)) nl = true
    · have hres : strEndsWith
          (rstripNL hb ++ '\n' :: '\n' :: joinNL (strip_leading_blank_lines body))
          nl = true := by
        rw [strEndsWith_nl_iff] at hj ⊢
        rw [getLast?_append_right _ _ (by simp),
          show ('\n' :: '\n' :: joinNL (strip_leading_blank_lines body)) =
            ['\n', '\n'] ++ joinNL (strip_leading_blank_lines body) from rfl,
          getLast?_append_right _ _ hjne]
        exact hj
      rw [if_pos hres, if_pos hj, List.append_nil]
    · have hres : ¬ strEndsWith
          (rstripNL hb ++ '\n' :: '\n' :: joinNL (strip_leading_blank_lines body))
          nl = true := by
        intro hc
        apply hj
        rw [strEndsWith_nl_iff] at hc ⊢
        rwa [getLast?_append_right _ _ (by simp),
          show ('\n' :: '\n' :: joinNL (strip_leading_blank_lines body)) =
            ['\n', '\n'] ++ joinNL (strip_leading_blank_lines body) from rfl,
          getLast?_append_right _ _ hjne] at hc
      rw [if_neg hres, if_neg hj]
  refine ⟨key, ?_, compose_endsWith_nl hb body, ?_⟩
  · intro hbe
    simp only [compose_with_header_block, hbe]
    split
    · rename_i h
      exact absurd rfl h
    · rw [if_pos (strEndsWith_append_nl _)]
  · intro lst hlst hlstne hlstnl
    have hbne : strip_leading_blank_lines body ≠ [] := by
      intro h
      rw [h] at hlst
      simp at hlst
    have hjne : joinNL (strip_leading_blank_lines body) ≠ [] :=
      strip_leading_joinNL_ne_nil body hbne
    have hjoin_last : (joinNL (strip_leading_blank_lines body)).getLast? =
        lst.getLast? :=
      getLast?_of_suffix (joinNL_suffix_getLast _ lst hlst) hlstne
    have hj : ¬ strEndsWith (joinNL (strip_leading_blank_lines body)) nl = true := by
      intro hc
      rw [strEndsWith_nl_iff, hjoin_last] at hc
      exact hlstnl hc
    rw [key hbne, if_neg hj]
    rw [Bool.eq_false_iff]
    intro h2
    have hsuf : ['\n', '\n'] <:+ (rstripNL hb ++
        '\n' :: '\n' :: joinNL (strip_leading_blank_lines body) ++ nl) := by
      have h3 := List.isSuffixOf_iff_suffix.mp h2
      simpa [s] using h3
    obtain ⟨u, hu⟩ := hsuf
    have hd := congrArg List.dropLast hu
    rw [show (rstripNL hb ++ '\n' :: '\n' :: joinNL (strip_leading_blank_lines body)
          ++ nl) = (rstripNL hb ++ '\n' :: '\n' ::
            joinNL (strip_leading_blank_lines body)) ++ ['\n'] from rfl,
      List.dropLast_concat,
      show u ++ ['\n', '\n'] = (u ++ ['\n']) ++ ['\n'] by simp,
      List.dropLast_concat] at hd
    have hlast := congrArg List.getLast? hd
    have h5 : (rstripNL hb ++
        '\n' :: '\n' :: joinNL (strip_leading_blank_lines body)).getLast? =
        List.getLast? lst := by
      rw [getLast?_append_right _ _ (by simp),
        show ('\n' :: '\n' :: joinNL (strip_leading_blank_lines body)) =
          ['\n', '\n'] ++ joinNL (strip_leading_blank_lines body) from rfl,
        getLast?_append_right _ _ hjne, hjoin_last]
    rw [List.getLast?_concat, h5] at hlast
    exact hlstnl hlast.symm

/-- Witness for C2 on a concrete header block and body. -/
theorem c2_witness :
    compose_with_header_block (s "# h") [[], s "x"] =
      rstripNL (s "# h") ++ '\n' :: '\n' ::
        joinNL (strip_leading_blank_lines [[], s "x"]) ++
        (if strEndsWith (joinNL (strip_leading_blank_lines [[], s "x"])) nl = true
         then [] else nl) ∧
    strEndsWith (compose_with_header_block (s "# h") [[], s "x"]) (s "\n\n") = false :=
  ⟨(c2_assembler_contract (s "# h") [[], s "x"]).1 (by decide),
   (c2_assembler_contract (s "# h") [[], s "x"]).2.2.2 (s "x") (by decide)
     (by decide) (by decide)⟩

/-- Adding the zero statistics on the left is the identity. -/
theorem statsAdd_zero_left (b : Stats) : statsAdd statsZero b = b := by
  cases b
  simp [statsAdd, statsZero]

/-- C8: per-file error recovery: a read failure (I/O or decode) makes
`process_file` report `skipped` without writing; a write failure is caught the
same way; `walk_directory` absorbs a directory-listing failure, contributing
nothing for that subtree, and a failing subtree does not stop its siblings
from being processed and counted. -/
theorem c8_error_recovery :
    (∀ (inp : PFInput) (e : PyErr), inp.readResult = .error e →
      process_file inp = (.skipped, false)) ∧
    (∀ (inp : PFInput) (cs ce content nc : Str) (e : PyErr),
      should_skip_path inp = false → inp.commentStyle = some (cs, ce) →
      inp.readResult = .ok content →
      determine_new_content (toLower (pySuffix inp.name)) content cs ce
        inp.headerBlock = some nc →
      nc ≠ content → inp.dryRun = false → inp.writeResult = .error e →
      process_file inp = (.skipped, false)) ∧
    (∀ (ign : List Str) (n : Str) (e : PyErr),
      walk_directory ign (.dir n (.error e)) = statsZero) ∧
    (∀ (ign : List Str) (n m : Str) (e : PyErr) (rest : List FSTree),
      walk_directory ign (.dir n (.ok (.dir m (.error e) :: rest))) =
        walkEntries ign rest) := by
  refine ⟨?_, ?_, ?_, ?_⟩
  · intro inp e h
    unfold process_file
    split
    · rfl
    · cases hcs : inp.commentStyle with
      | none => simp [hcs]
      | some style =>
        obtain ⟨cs, ce⟩ := style
        simp [hcs, h]
  · intro inp cs ce content nc e hskip hcs hread hdet hne hdry hwrite
    unfold process_file
    rw [if_neg (by simp [hskip])]
    simp [hcs, hread, hdet, hne, hdry, hwrite]
  · intro ign n e
    simp [walk_directory]
  · intro ign n m e rest
    rw [walk_directory, walkEntries]
    by_cases hm : ign.contains m
    · rw [if_pos hm, statsAdd_zero_left]
    · rw [if_neg hm, walk_directory, statsAdd_zero_left]

/-- Witness for C8 at concrete inputs: a file whose read raises, a file whose
write raises, and a directory with a failing subdirectory followed by a
sibling file. -/
theorem c8_witness :
    process_file
      { isFile := true, name := s "a.py", cfgIgnoredFiles := [],
        binarySniff := false, commentStyle := some (s "#", []),
        readResult := .error .osError, headerBlock := s "# File: a.py",
        writeResult := .ok (), dryRun := false } = (.skipped, false) ∧
    process_file
      { isFile := true, name := s "a.py", cfgIgnoredFiles := [],
        binarySniff := false, commentStyle := some (s "#", []),
        readResult := .ok (s "x = 1"), headerBlock := s "# File: a.py",
        writeResult := .error .osError, dryRun := false } = (.skipped, false) ∧
    walk_directory [] (.dir (s "root") (.ok
        [ .dir (s "bad") (.error .osError)
        , .file
            { isFile := true, name := s "b.py", cfgIgnoredFiles := [],
              binarySniff := false, commentStyle := some (s "#", []),
              readResult := .error .unicodeDecodeError,
              headerBlock := s "# File: b.py",
              writeResult := .ok (), dryRun := false } ])) =
      walkEntries []
        [ .file
            { isFile := true, name := s "b.py", cfgIgnoredFiles := [],
              binarySniff := false, commentStyle := some (s "#", []),
              readResult := .error .unicodeDecodeError,
              headerBlock := s "# File: b.py",
              writeResult := .ok (), dryRun := false } ] :=
  ⟨c8_error_recovery.1 _ .osError rfl,
   c8_error_recovery.2.1 _ (s "#") [] (s "x = 1") (s "# File: a.py\n\nx = 1\n")
     .osError (by decide) rfl rfl (by decide) (by decide) rfl rfl,
   c8_error_recovery.2.2.2 [] (s "root") (s "bad") .osError _⟩

/-- C10: documentation-suffix skip: a file whose lower-cased suffix is `.md`,
`.markdown` or `.json` is reported `skipped` by `process_file` and never
written, whatever the dialect lookup would return (the skip fires before the
lookup result is consulted); consequently the JSON entries of the
special-filename dialect registry can never cause a header to be written. -/
theorem c10_doc_suffix_skip :
    (∀ inp : PFInput,
      toLower (pySuffix inp.name) ∈ [s ".md", s ".markdown", s ".json"] →
      process_file inp = (.skipped, false)) ∧
    (∀ name ∈ [s "package.json", s "tsconfig.json", s "jsconfig.json",
        s ".eslintrc.json", s "package-lock.json", s "composer.json"],
      (specialFileComments.map Prod.fst).contains name = true ∧
      toLower (pySuffix name) = s ".json") := by
  constructor
  · intro inp h
    have hskip : should_skip_path inp = true := by
      unfold should_skip_path
      split
      · rfl
      · rw [if_pos (Or.inl h)]
    unfold process_file
    rw [if_pos hskip]
  · decide

/-- Witness for C10 on `package.json` with an arbitrary dialect lookup
attached. -/
theorem c10_witness :
    process_file
      { isFile := true, name := s "package.json",
        cfgIgnoredFiles := [], binarySniff := false,
        commentStyle := some (s "//", []), readResult := .ok (s "\x7b\x7d"),
        headerBlock := s "// File: package.json", writeResult := .ok (),
        dryRun := false } = (.skipped, false) ∧
    (specialFileComments.map Prod.fst).contains (s "package.json") = true :=
  ⟨c10_doc_suffix_skip.1 _ (by decide),
   ((c10_doc_suffix_skip.2 (s "package.json") (by decide)).1)⟩

/-- The metadata keyword test is false on the empty line. -/
theorem isMetadataKwLine_nil (cs : Str) : isMetadataKwLine cs [] = false := by
  have h : (metadataKeywords.any fun kw => containsStr (toLower []) kw) = false := by
    decide
  simp [isMetadataKwLine, h]

/-- The collector returns a non-empty list iff some scanned line is a metadata
keyword line (outside a block, non-keyword lines are merely skipped). -/
theorem collectMetaAux_ne_nil_iff (cs : Str) (ls : List Str) :
    collectMetaAux cs false ls ≠ [] ↔
      ∃ l ∈ ls, isMetadataKwLine cs (pyStrip l) = true := by
  induction ls with
  | nil => simp [collectMetaAux]
  | cons x rest ih =>
    simp only [collectMetaAux]
    by_cases hx : pyStrip x = []
    · rw [if_pos hx, ih]
      constructor
      · rintro ⟨l, hl, h⟩
        exact ⟨l, List.mem_cons_of_mem x hl, h⟩
      · rintro ⟨l, hl, h⟩
        rcases List.mem_cons.mp hl with rfl | hl2
        · rw [hx, isMetadataKwLine_nil] at h
          cases h
        · exact ⟨l, hl2, h⟩
    · rw [if_neg hx]
      by_cases hkw : isMetadataKwLine cs (pyStrip x) = true
      · rw [if_pos hkw]
        simp only [ne_eq, List.cons_ne_nil, not_false_eq_true, true_iff]
        exact ⟨x, List.mem_cons_self x rest, hkw⟩
      · rw [if_neg hkw, if_neg (by simp), if_neg (by simp), ih]
        constructor
        · rintro ⟨l, hl, h⟩
          exact ⟨l, List.mem_cons_of_mem x hl, h⟩
        · rintro ⟨l, hl, h⟩
          rcases List.mem_cons.mp hl with rfl | hl2
          · exact absurd h hkw
          · exact ⟨l, hl2, h⟩

/-- C9: implicit metadata adoption: on a plain file (non-empty, no shebang,
not XML-like, not a framework file) with no detected header but with collected
metadata lines among its first 10 lines, `_determine_new_content` places the
collected lines directly under the new header and removes from the body every
line, at any position in the file, whose stripped text equals the stripped
text of a collected metadata line; collection triggers exactly when one of the
first 10 lines is a comment containing one of the metadata keywords. -/
theorem c9_metadata_adoption (sfx content cs ce hb : Str)
    (hne : splitlines content ≠ [])
    (hsb : strStartsWith ((splitlines content).headD []) (s "#!") = false)
    (hxml : is_special_xml_file sfx = false)
    (hfw : ¬(sfx = s ".vue" ∨ sfx = s ".svelte" ∨ sfx = s ".astro"))
    (hhdr : has_existing_header (splitlines content) cs 0 = false)
    (hmd : collect_metadata_lines (splitlines content) cs ≠ []) :
    determine_new_content sfx content cs ce hb =
      some (compose_with_header_block
        (hb ++ '\n' :: joinNL (collect_metadata_lines (splitlines content) cs))
        ((splitlines content).filter fun l =>
          decide (pyStrip l ∉
            (collect_metadata_lines (splitlines content) cs).map pyStrip))) ∧
    (∀ l ∈ splitlines content,
      pyStrip l ∈ (collect_metadata_lines (splitlines content) cs).map pyStrip →
      l ∉ (splitlines content).filter fun l2 =>
        decide (pyStrip l2 ∉
          (collect_metadata_lines (splitlines content) cs).map pyStrip)) ∧
    (collect_metadata_lines (splitlines content) cs ≠ [] ↔
      ∃ l ∈ (splitlines content).take 10,
        isMetadataKwLine cs (pyStrip l) = true) := by
  refine ⟨?_, ?_, collectMetaAux_ne_nil_iff cs ((splitlines content).take 10)⟩
  · have hsb2 : strStartsWith ((splitlines content).head?.getD []) (s "#!")
        = false := by simpa using hsb
    simp only [determine_new_content]
    rw [if_neg hne, if_neg (by simp [hsb2]), if_neg (by simp [hxml]), if_neg hfw,
      if_neg (by simp [hhdr]), if_pos hmd]
  · intro l hl hmem hcontra
    rw [List.mem_filter] at hcontra
    have h2 := hcontra.2
    simp only [decide_eq_true_eq] at h2
    exact h2 hmem

/-- Witness for C9: a duplicate of the adopted metadata line deep in the file
is removed as well. -/
theorem c9_witness :
    determine_new_content (s ".py") (s "# Author: A\nx\n# Author: A") (s "#") []
      (s "# File: p") = some (s "# File: p\n# Author: A\n\nx\n") := by
  have h := (c9_metadata_adoption (s ".py") (s "# Author: A\nx\n# Author: A")
    (s "#") [] (s "# File: p") (by decide) (by decide) (by decide) (by decide)
    (by decide) (by decide)).1
  rw [h]
  decide

/-- `splitOnNL` never returns the empty list. -/
theorem splitOnNL_ne_nil (t : Str) : splitOnNL t ≠ [] := by
  cases t with
  | nil => simp [splitOnNL]
  | cons c rest =>
    simp only [splitOnNL]
    cases h : splitOnNL rest with
    | nil => simp
    | cons l ls =>
      by_cases hc : c = '\n' <;> simp [hc]

/-- A newline-free string splits on newlines to itself alone. -/
theorem splitOnNL_nl_free (a : Str) (h : '\n' ∉ a) : splitOnNL a = [a] := by
  induction a with
  | nil => rfl
  | cons c rest ih =>
    simp only [List.mem_cons, not_or] at h
    have hc : ¬ c = '\n' := fun hcc => h.1 hcc.symm
    simp only [splitOnNL, ih h.2, if_neg hc]

/-- Splitting an append across an explicit newline. -/
theorem splitOnNL_append (a b : Str) (h : '\n' ∉ a) :
    splitOnNL (a ++ '\n' :: b) = a :: splitOnNL b := by
  induction a with
  | nil =>
    simp only [List.nil_append, splitOnNL]
    cases hb : splitOnNL b with
    | nil => exact absurd hb (splitOnNL_ne_nil b)
    | cons l ls => simp
  | cons c rest ih =>
    simp only [List.mem_cons, not_or] at h
    have hc : ¬ c = '\n' := fun hcc => h.1 hcc.symm
    rw [List.cons_append]
    simp only [splitOnNL, ih h.2, if_neg hc]

/-- Joining newline-free lines and splitting again is the identity. -/
theorem splitOnNL_joinNL (ls : List Str) (hne : ls ≠ [])
    (h : ∀ l ∈ ls, '\n' ∉ l) : splitOnNL (joinNL ls) = ls := by
  induction ls with
  | nil => exact absurd rfl hne
  | cons x rest ih =>
    cases rest with
    | nil => exact splitOnNL_nl_free x (h x (List.mem_cons_self x []))
    | cons y t =>
      rw [show joinNL (x :: y :: t) = x ++ '\n' :: joinNL (y :: t) from rfl,
        splitOnNL_append x _ (h x (List.mem_cons_self x _)),
        ih (by simp) (fun l hl => h l (List.mem_cons_of_mem x hl))]

/-- The pieces produced by `splitOnNL` contain no newline. -/
theorem splitOnNL_mem_nl_free (t : Str) :
    ∀ l ∈ splitOnNL t, '\n' ∉ l := by
  induction t with
  | nil =>
    intro l hl
    simp only [splitOnNL, List.mem_singleton] at hl
    simp [hl]
  | cons c rest ih =>
    intro l hl
    simp only [splitOnNL] at hl
    cases hr : splitOnNL rest with
    | nil => exact absurd hr (splitOnNL_ne_nil rest)
    | cons m ms =>
      rw [hr] at hl
      dsimp only at hl
      by_cases hc : c = '\n'
      · rw [if_pos hc] at hl
        rcases List.mem_cons.mp hl with rfl | hl2
        · simp
        · exact ih l (hr ▸ hl2)
      · rw [if_neg hc] at hl
        rcases List.mem_cons.mp hl with rfl | hl2
        · intro hmem
          rcases List.mem_cons.mp hmem with hh | hh
          · exact hc hh.symm
          · exact ih m (hr ▸ List.mem_cons_self m ms) hh
        · exact ih l (hr ▸ List.mem_cons_of_mem m hl2)

/-- Characters of a stripped string come from the original string. -/
theorem mem_of_mem_pyStrip {c : Char} {t : Str} (h : c ∈ pyStrip t) : c ∈ t := by
  unfold pyStrip at h
  rw [List.mem_reverse] at h
  have h2 := (List.dropWhile_suffix isPySpace).subset h
  rw [List.mem_reverse] at h2
  exact (List.dropWhile_suffix isPySpace).subset h2

/-- Characters of a replacement by the empty string come from the original
string. -/
theorem mem_of_mem_replaceAllFuel {old : Str} {c : Char} :
    ∀ (fuel : Nat) (t : Str), c ∈ replaceAllFuel old [] fuel t → c ∈ t := by
  intro fuel
  induction fuel with
  | zero => exact fun t h => h
  | succ n ih =>
    intro t h
    unfold replaceAllFuel at h
    split at h
    · exact h
    · split at h
      · rw [List.nil_append] at h
        exact List.mem_of_mem_drop (ih _ h)
      · cases t with
        | nil => simpa using h
        | cons d t2 =>
          rcases List.mem_cons.mp h with rfl | h2
          · exact List.mem_cons_self _ _
          · exact List.mem_cons_of_mem d (ih t2 h2)

/-- Characters of the extracted file path come from the new header fragment. -/
theorem mem_of_mem_mergeFilePath {c : Char} {new ce : Str}
    (h : c ∈ mergeFilePath new ce) : c ∈ new := by
  simp only [mergeFilePath] at h
  split at h
  · exact mem_of_mem_replaceAllFuel _ _
      (mem_of_mem_pyStrip (List.mem_of_mem_take (mem_of_mem_pyStrip h)))
  · exact mem_of_mem_replaceAllFuel _ _ (mem_of_mem_pyStrip h)

/-- Characters of the extracted metadata text come from the source line. -/
theorem mem_of_mem_mergeMetaText {cs ce line : Str} {d : Char}
    (h : d ∈ mergeMetaText cs ce line) : d ∈ line := by
  simp only [mergeMetaText] at h
  split at h
  · exact mem_of_mem_pyStrip (List.mem_of_mem_drop (mem_of_mem_pyStrip
      (List.mem_of_mem_take (mem_of_mem_pyStrip h))))
  · exact mem_of_mem_pyStrip (List.mem_of_mem_drop (mem_of_mem_pyStrip h))

/-- A kept metadata line contains no newline when the markers and the source
line contain none. -/
theorem mergeMetaLine_nl_free {cs ce line out : Str} (hcs : '\n' ∉ cs)
    (hce : '\n' ∉ ce) (hline : '\n' ∉ line)
    (h : mergeMetaLine cs ce line = some out) : '\n' ∉ out := by
  simp only [mergeMetaLine] at h
  split at h
  · cases h
  · split at h
    · cases h
    · split at h
      · split at h
        · intro hmem
          rw [← Option.some.inj h] at hmem
          split at hmem
          · rcases List.mem_append.mp hmem with hin | hin
            · rcases List.mem_append.mp hin with hin1 | hin1
              · exact hcs hin1
              · rcases List.mem_cons.mp hin1 with heq | hin2
                · exact absurd heq.symm (by decide)
                · exact hline (mem_of_mem_mergeMetaText hin2)
            · rcases List.mem_cons.mp hin with heq | hin4
              · exact absurd heq.symm (by decide)
              · exact hce hin4
          · rcases List.mem_append.mp hmem with hin | hin
            · exact hcs hin
            · rcases List.mem_cons.mp hin with heq | hin2
              · exact absurd heq.symm (by decide)
              · exact hline (mem_of_mem_mergeMetaText hin2)
        · cases h
      · cases h

/-- The standard header line contains no newline when the markers and path
contain none. -/
theorem standardHeaderLine_nl_free {cs ce fp : Str} (hcs : '\n' ∉ cs)
    (hce : '\n' ∉ ce) (hfp : '\n' ∉ fp) :
    '\n' ∉ standardHeaderLine cs ce fp := by
  intro h
  unfold standardHeaderLine at h
  rcases List.mem_append.mp h with hin | hin
  · rcases List.mem_append.mp hin with hin1 | hin1
    · rcases List.mem_append.mp hin1 with hin2 | hin2
      · exact hcs hin2
      · exact absurd hin2 (by decide)
    · exact hfp hin1
  · split at hin
    · rcases List.mem_cons.mp hin with heq | hin2
      · exact absurd heq.symm (by decide)
      · exact hce hin2
    · simp at hin

/-- C4, counterexample: the 15-character path-keyword window is applied to the
whole line including the comment marker, not to the marker-stripped text: the
line `"# abcdefghijklm file: x"` has `file:` at index 14 of its stripped text
(a path line under the claim's rule, to be dropped), yet the merge keeps it,
because in the raw line the keyword sits at index 16. -/
theorem c4_counterexample :
    merge_headers (s "# File: old.py\n# abcdefghijklm file: x") (s "File: new.py")
      (s "#") [] = s "# File: new.py\n# abcdefghijklm file: x" ∧
    specKeywordIn15 (s "abcdefghijklm file: x") = true := by
  decide

/-- C4, amended: the merged result is the new standard file-path line followed
by exactly the existing lines kept as metadata, in original order with none
duplicated; a line is kept iff, after whitespace-stripping, it is non-empty,
no path keyword occurs within the first 15 characters of the whole lower-cased
line (comment markers included), the line starts with the comment-start
marker, and the marker-stripped text is non-empty; kept lines are rebuilt as
`comment_start + ' ' + text (+ ' ' + comment_end)`. -/
theorem c4_merge_contract (existing new cs ce : Str)
    (hcs : '\n' ∉ cs) (hce : '\n' ∉ ce) (hnew : '\n' ∉ new) :
    splitOnNL (merge_headers existing new cs ce) =
      standardHeaderLine cs ce (mergeFilePath new ce) ::
        (splitOnNL (pyStrip existing)).filterMap (mergeMetaLine cs ce) ∧
    merge_headers (s "# File: old.py\n# Author: John Doe\n# Version: 1.0")
      (s "File: new.py") (s "#") [] =
      s "# File: new.py\n# Author: John Doe\n# Version: 1.0" := by
  constructor
  · have hfp : '\n' ∉ mergeFilePath new ce :=
      fun h => hnew (mem_of_mem_mergeFilePath h)
    have hstd := standardHeaderLine_nl_free hcs hce hfp
    simp only [merge_headers]
    split
    · rename_i hne
      rw [splitOnNL_append _ _ hstd, splitOnNL_joinNL _ hne]
      intro l hl
      obtain ⟨l0, hl0, hml⟩ := List.mem_filterMap.mp hl
      exact mergeMetaLine_nl_free hcs hce (splitOnNL_mem_nl_free _ l0 hl0) hml
    · rename_i hne
      rw [splitOnNL_nl_free _ hstd, not_ne_iff.mp hne]
  · decide

/-- Witness for C4 on a concrete merge. -/
theorem c4_witness :
    splitOnNL (merge_headers (s "# File: old.py\n# Author: John Doe")
        (s "File: new.py") (s "#") []) =
      standardHeaderLine (s "#") [] (mergeFilePath (s "File: new.py") []) ::
        (splitOnNL (pyStrip (s "# File: old.py\n# Author: John Doe"))).filterMap
          (mergeMetaLine (s "#") []) :=
  (c4_merge_contract (s "# File: old.py\n# Author: John Doe") (s "File: new.py")
    (s "#") [] (by decide) (by decide) (by decide)).1

/-- Step lemma: a newline starts a new piece. -/
theorem splitlinesAux_nl (cur b : Str) :
    splitlinesAux cur ('\n' :: b) = cur.reverse :: splitlinesAux [] b := by
  simp [splitlinesAux, show isLineBoundary '\n' = true from by decide]

/-- Step lemma: a non-boundary character extends the current piece. -/
theorem splitlinesAux_plain (cur b : Str) (c : Char)
    (h1 : isLineBoundary c = false) :
    splitlinesAux cur (c :: b) = splitlinesAux (c :: cur) b := by
  have hr : c ≠ '\r' := by
    intro h
    rw [h] at h1
    exact absurd h1 (by decide)
  rcases b with _ | ⟨d, rest⟩
  · simp [splitlinesAux, h1]
  · by_cases hd : d = '\n'
    · subst hd
      simp [splitlinesAux, h1, hr]
    · simp [splitlinesAux, h1, hr, hd]

/-- Splitting boundary-free text prepended with an explicit newline. -/
theorem splitlinesAux_append_bf (a : Str) : ∀ (cur b : Str),
    (∀ c ∈ a, isLineBoundary c = false) →
    splitlinesAux cur (a ++ '\n' :: b) = (cur.reverse ++ a) :: splitlines b := by
  induction a with
  | nil =>
    intro cur b _
    rw [List.nil_append, splitlinesAux_nl]
    simp [splitlines]
  | cons c a' ih =>
    intro cur b h
    rw [List.cons_append,
      splitlinesAux_plain _ _ c (h c (List.mem_cons_self c a')),
      ih (c :: cur) b (fun d hd => h d (List.mem_cons_of_mem c hd))]
    simp

/-- `splitlines` on `a ++ "\n" ++ b` with boundary-free `a`. -/
theorem splitlines_append_bf (a b : Str)
    (h : ∀ c ∈ a, isLineBoundary c = false) :
    splitlines (a ++ '\n' :: b) = a :: splitlines b := by
  have := splitlinesAux_append_bf a [] b h
  simpa [splitlines] using this

/-- `splitlines` of a boundary-free non-empty string. -/
theorem splitlines_bf (a : Str) (h : ∀ c ∈ a, isLineBoundary c = false)
    (hne : a ≠ []) : splitlines a = [a] := by
  suffices haux : ∀ (a : Str), (∀ c ∈ a, isLineBoundary c = false) →
      ∀ cur : Str, splitlinesAux cur a =
        if cur.reverse ++ a = [] then [] else [cur.reverse ++ a] by
    have := haux a h []
    simp only [List.reverse_nil, List.nil_append] at this
    rw [splitlines, this, if_neg hne]
  intro a
  induction a with
  | nil =>
    intro _ cur
    simp [splitlinesAux]
  | cons c a' ih =>
    intro h cur
    rw [splitlinesAux_plain _ _ c (h c (List.mem_cons_self c a')),
      ih (fun d hd => h d (List.mem_cons_of_mem c hd)) (c :: cur)]
    simp

/-- Splitting the newline-terminated join of boundary-free lines recovers the
lines. -/
theorem splitlines_join_bf (body : List Str) (hne : body ≠ [])
    (h : ∀ l ∈ body, ∀ c ∈ l, isLineBoundary c = false) :
    splitlines (joinNL body ++ nl) = body := by
  induction body with
  | nil => exact absurd rfl hne
  | cons x rest ih =>
    cases rest with
    | nil =>
      rw [show joinNL [x] ++ nl = x ++ '\n' :: [] from rfl,
        splitlines_append_bf x [] (h x (List.mem_cons_self x []))]
      simp [splitlines, splitlinesAux]
    | cons y t =>
      rw [show joinNL (x :: y :: t) ++ nl = x ++ '\n' :: (joinNL (y :: t) ++ nl) by
          simp [joinNL],
        splitlines_append_bf x _ (h x (List.mem_cons_self x _)),
        ih (by simp) (fun l hl => h l (List.mem_cons_of_mem x hl))]

/-- Step lemma: a `\r\n` pair is a single boundary. -/
theorem splitlinesAux_crlf (cur rest : Str) :
    splitlinesAux cur ('\r' :: '\n' :: rest) =
      cur.reverse :: splitlinesAux [] rest := by
  simp [splitlinesAux]

/-- Step lemma: a boundary character not forming a `\r\n` pair starts a new
piece. -/
theorem splitlinesAux_boundary (cur b : Str) (c : Char)
    (h : isLineBoundary c = true) (hr : ¬(c = '\r' ∧ b.head? = some '\n')) :
    splitlinesAux cur (c :: b) = cur.reverse :: splitlinesAux [] b := by
  by_cases hc : c = '\r'
  · subst hc
    rcases b with _ | ⟨d, rest⟩
    · simp [splitlinesAux, show isLineBoundary '\r' = true from by decide]
    · have hd : ¬ d = '\n' := fun hdd => hr ⟨rfl, by rw [hdd]; rfl⟩
      simp [splitlinesAux, hd, show isLineBoundary '\r' = true from by decide]
  · rcases b with _ | ⟨d, rest⟩
    · simp [splitlinesAux, h, hc]
    · by_cases hd : d = '\n'
      · subst hd
        simp [splitlinesAux, h, hc]
      · simp [splitlinesAux, h, hc, hd]

/-- Every piece returned by `splitlinesAux` on any input is boundary-free,
provided the accumulator is. -/
theorem splitlinesAux_mem_bf : ∀ (n : Nat) (t cur : Str), t.length ≤ n →
    (∀ c ∈ cur, isLineBoundary c = false) →
    ∀ l ∈ splitlinesAux cur t, ∀ c ∈ l, isLineBoundary c = false := by
  intro n
  induction n with
  | zero =>
    intro t cur hlen hcur l hl c hc
    have ht : t = [] := List.eq_nil_of_length_eq_zero (Nat.le_zero.mp hlen)
    subst ht
    simp only [splitlinesAux] at hl
    split at hl
    · simp at hl
    · rw [List.mem_singleton] at hl
      subst hl
      exact hcur c (List.mem_reverse.mp hc)
  | succ n ih =>
    intro t cur hlen hcur l hl c hc
    cases t with
    | nil =>
      simp only [splitlinesAux] at hl
      split at hl
      · simp at hl
      · rw [List.mem_singleton] at hl
        subst hl
        exact hcur c (List.mem_reverse.mp hc)
    | cons d rest =>
      rw [List.length_cons] at hlen
      by_cases hd : isLineBoundary d = false
      · rw [splitlinesAux_plain _ _ d hd] at hl
        refine ih rest (d :: cur) (by omega) ?_ l hl c hc
        intro e he
        rcases List.mem_cons.mp he with rfl | he2
        · exact hd
        · exact hcur e he2
      · have hdb : isLineBoundary d = true := by
          cases hb : isLineBoundary d
          · exact absurd hb hd
          · rfl
        by_cases hpair : d = '\r' ∧ rest.head? = some '\n'
        · obtain ⟨rfl, hh⟩ := hpair
          cases rest with
          | nil => simp at hh
          | cons e rest2 =>
            simp only [List.head?_cons, Option.some.injEq] at hh
            subst hh
            rw [splitlinesAux_crlf] at hl
            rcases List.mem_cons.mp hl with rfl | hl2
            · exact hcur c (List.mem_reverse.mp hc)
            · exact ih rest2 [] (by simp at hlen; omega) (by simp) l hl2 c hc
        · rw [splitlinesAux_boundary _ _ d hdb hpair] at hl
          rcases List.mem_cons.mp hl with rfl | hl2
          · exact hcur c (List.mem_reverse.mp hc)
          · exact ih rest [] (by omega) (by simp) l hl2 c hc

/-- Every line returned by `splitlines` is boundary-free. -/
theorem splitlines_mem_bf (t : Str) :
    ∀ l ∈ splitlines t, ∀ c ∈ l, isLineBoundary c = false :=
  splitlinesAux_mem_bf t.length t [] (Nat.le_refl _) (by simp)

/-- The assembler's output is never empty. -/
theorem compose_ne_nil (hb : Str) (body : List Str) :
    compose_with_header_block hb body ≠ [] := by
  intro h
  have h2 := compose_endsWith_nl hb body
  rw [h, strEndsWith_nl_iff] at h2
  simp at h2

/-- The assembler's output always splits into the header block's line followed
by further lines, when the header block is one boundary-free line without
trailing newlines. -/
theorem splitlines_compose (hb : Str) (rem : List Str)
    (hbf : ∀ c ∈ hb, isLineBoundary c = false) (hr : rstripNL hb = hb) :
    ∃ restLines,
      splitlines (compose_with_header_block hb rem) = hb :: restLines := by
  simp only [compose_with_header_block, hr]
  by_cases hbody : strip_leading_blank_lines rem ≠ []
  · rw [if_pos hbody]
    split
    · exact ⟨_, splitlines_append_bf hb _ hbf⟩
    · rw [show (hb ++ '\n' :: '\n' :: joinNL (strip_leading_blank_lines rem)) ++ nl
          = hb ++ '\n' :: ('\n' :: (joinNL (strip_leading_blank_lines rem) ++ nl))
          by simp [nl]]
      exact ⟨_, splitlines_append_bf hb _ hbf⟩
  · rw [if_neg hbody, if_pos (strEndsWith_append_nl _)]
    rw [show hb ++ nl = hb ++ '\n' :: [] from rfl,
      splitlines_append_bf hb [] hbf]
    exact ⟨_, rfl⟩

/-- C6: preamble preservation: a file whose first line starts with `#!` is
routed to the shebang processor, whose output keeps the identical shebang as
its first line with the composed header as the new second line; and for an
XML-like file whose leading lines are declarations, the output is exactly the
declaration lines, in original order and unmodified, followed immediately by
the composed header block. -/
theorem c6_preamble_preservation :
    (∀ (sfx content cs ce hb : Str),
      splitlines content ≠ [] →
      strStartsWith ((splitlines content).headD []) (s "#!") = true →
      determine_new_content sfx content cs ce hb =
        some (process_shebang_file (splitlines content) hb cs)) ∧
    (∀ (lines : List Str) (hb cs : Str),
      (∀ c ∈ lines.headD [], isLineBoundary c = false) →
      (∀ c ∈ hb, isLineBoundary c = false) → rstripNL hb = hb →
      ∃ restLines,
        splitlines (process_shebang_file lines hb cs) =
          lines.headD [] :: hb :: restLines) ∧
    (∀ (lines : List Str) (hb cs : Str),
      lines.takeWhile isXmlDeclLine ≠ [] →
      process_xml_like_file lines hb cs =
        joinNL (lines.takeWhile isXmlDeclLine) ++ '\n' ::
          compose_with_header_block hb
            (remove_existing_header
              (lines.drop (lines.takeWhile isXmlDeclLine).length) cs 0)) := by
  refine ⟨?_, ?_, ?_⟩
  · intro sfx content cs ce hb hne hsb
    simp only [determine_new_content]
    rw [if_neg hne, if_pos hsb]
  · intro lines hb cs hshebbf hbbf hr
    obtain ⟨restLines, hrest⟩ :=
      splitlines_compose hb (remove_existing_header lines.tail cs 0) hbbf hr
    have hcne := compose_ne_nil hb (remove_existing_header lines.tail cs 0)
    have hend := compose_endsWith_nl hb (remove_existing_header lines.tail cs 0)
    simp only [process_shebang_file]
    rw [if_pos ?hpos]
    case hpos =>
      rw [strEndsWith_nl_iff,
        getLast?_append_right _ _ (by simp),
        show ('\n' :: compose_with_header_block hb
            (remove_existing_header lines.tail cs 0)) =
          ['\n'] ++ compose_with_header_block hb
            (remove_existing_header lines.tail cs 0) from rfl,
        getLast?_append_right _ _ hcne, ← strEndsWith_nl_iff]
      exact hend
    rw [splitlines_append_bf _ _ (by simpa using hshebbf), hrest]
    exact ⟨restLines, rfl⟩
  · intro lines hb cs hdecl
    have hlne : lines ≠ [] := by
      intro h
      rw [h] at hdecl
      simp at hdecl
    have hcne := compose_ne_nil hb
      (remove_existing_header (lines.drop (lines.takeWhile isXmlDeclLine).length) cs 0)
    have hend := compose_endsWith_nl hb
      (remove_existing_header (lines.drop (lines.takeWhile isXmlDeclLine).length) cs 0)
    simp only [process_xml_like_file]
    rw [if_neg hlne, if_pos hdecl, if_pos ?hend2]
    case hend2 =>
      rw [strEndsWith_nl_iff,
        getLast?_append_right _ _ (by simp),
        show ('\n' :: compose_with_header_block hb
            (remove_existing_header
              (lines.drop (lines.takeWhile isXmlDeclLine).length) cs 0)) =
          ['\n'] ++ compose_with_header_block hb
            (remove_existing_header
              (lines.drop (lines.takeWhile isXmlDeclLine).length) cs 0) from rfl,
        getLast?_append_right _ _ hcne, ← strEndsWith_nl_iff]
      exact hend

/-- Witness for C6 on a concrete shebang file and a concrete XML file. -/
theorem c6_witness :
    determine_new_content (s ".py") (s "#!/usr/bin/env python\nx = 1")
      (s "#") [] (s "# File: a.py") =
      some (process_shebang_file (splitlines (s "#!/usr/bin/env python\nx = 1"))
        (s "# File: a.py") (s "#")) ∧
    (∃ restLines,
      splitlines (process_shebang_file
          (splitlines (s "#!/usr/bin/env python\nx = 1")) (s "# File: a.py")
          (s "#")) =
        s "#!/usr/bin/env python" :: s "# File: a.py" :: restLines) ∧
    process_xml_like_file [s "<?xml version=\x221.0\x22?>", s "<root/>"]
        (s "<!-- File: x.xml -->") (s "<!--") =
      joinNL ([s "<?xml version=\x221.0\x22?>", s "<root/>"].takeWhile
          isXmlDeclLine) ++ '\n' ::
        compose_with_header_block (s "<!-- File: x.xml -->")
          (remove_existing_header
            ([s "<?xml version=\x221.0\x22?>", s "<root/>"].drop
              ([s "<?xml version=\x221.0\x22?>", s "<root/>"].takeWhile
                isXmlDeclLine).length) (s "<!--") 0) :=
  ⟨c6_preamble_preservation.1 (s ".py") (s "#!/usr/bin/env python\nx = 1")
      (s "#") [] (s "# File: a.py") (by decide) (by decide),
   by
    have h := c6_preamble_preservation.2.1
      (splitlines (s "#!/usr/bin/env python\nx = 1")) (s "# File: a.py") (s "#")
      (by decide) (by decide) (by decide)
    simpa using h,
   c6_preamble_preservation.2.2 [s "<?xml version=\x221.0\x22?>", s "<root/>"]
      (s "<!-- File: x.xml -->") (s "<!--") (by decide)⟩

/-- Occurrence at a position, characterized by `take`/`drop`. -/
theorem occursAtP_iff (n h : Str) (i : Nat) :
    occursAtP n h i ↔ i + n.length ≤ h.length ∧ (h.drop i).take n.length = n := by
  constructor
  · rintro ⟨u, v, rfl, rfl⟩
    refine ⟨by simp, ?_⟩
    rw [List.append_assoc, List.drop_left, List.take_left]
  · rintro ⟨hle, heq⟩
    refine ⟨h.take i, h.drop (i + n.length), ?_, by simp [List.length_take]; omega⟩
    have h1 : h.drop i = n ++ h.drop (i + n.length) := by
      conv_lhs => rw [← List.take_append_drop n.length (h.drop i)]
      rw [heq, List.drop_drop]
    calc h = h.take i ++ h.drop i := (List.take_append_drop i h).symm
    _ = h.take i ++ (n ++ h.drop (i + n.length)) := by rw [h1]
    _ = h.take i ++ n ++ h.drop (i + n.length) := by rw [List.append_assoc]

/-- An occurrence inside an append lies in the left part, in the right part,
or straddles the junction, splitting the needle. -/
theorem occursAtP_append (n a b : Str) (i : Nat)
    (h : occursAtP n (a ++ b) i) :
    occursAtP n a i ∨ (a.length ≤ i ∧ occursAtP n b (i - a.length)) ∨
    (i < a.length ∧ a.length < i + n.length ∧
      ∃ n1 n2, n = n1 ++ n2 ∧ n1 ≠ [] ∧ n2 ≠ [] ∧ n1 <:+ a ∧ n2 <+: b) := by
  rw [occursAtP_iff] at h
  obtain ⟨hle, heq⟩ := h
  rw [List.length_append] at hle
  by_cases h1 : i + n.length ≤ a.length
  · left
    rw [occursAtP_iff]
    refine ⟨h1, ?_⟩
    have hdrop : (a ++ b).drop i = a.drop i ++ b := by
      rw [List.drop_append_eq_append_drop, Nat.sub_eq_zero_of_le (by omega),
        List.drop_zero]
    rw [hdrop, List.take_append_eq_append_take] at heq
    have hlen2 : n.length - (a.drop i).length = 0 := by
      simp only [List.length_drop]
      omega
    rw [hlen2, List.take_zero, List.append_nil] at heq
    exact heq
  · by_cases h2 : a.length ≤ i
    · right
      left
      refine ⟨h2, ?_⟩
      rw [occursAtP_iff]
      refine ⟨by omega, ?_⟩
      have hdrop : (a ++ b).drop i = b.drop (i - a.length) := by
        rw [List.drop_append_eq_append_drop, List.drop_eq_nil_of_le h2,
          List.nil_append]
      rw [hdrop] at heq
      exact heq
    · right
      right
      refine ⟨by omega, by omega, a.drop i, b.take (i + n.length - a.length),
        ?_, ?_, ?_, List.drop_suffix i a, List.take_prefix _ b⟩
      · have hdrop : (a ++ b).drop i = a.drop i ++ b := by
          rw [List.drop_append_eq_append_drop, Nat.sub_eq_zero_of_le (by omega),
            List.drop_zero]
        rw [hdrop, List.take_append_eq_append_take] at heq
        rw [List.take_of_length_le (by simp only [List.length_drop]; omega)] at heq
        have hlen3 : n.length - (a.drop i).length = i + n.length - a.length := by
          simp only [List.length_drop]
          omega
        rw [hlen3] at heq
        exact heq.symm
      · intro hnil
        have := congrArg List.length hnil
        simp only [List.length_drop, List.length_nil] at this
        omega
      · intro hnil
        have := congrArg List.length hnil
        simp only [List.length_take, List.length_nil] at this
        omega

/-- An occurrence yields substring containment. -/
theorem containsStr_of_occursAtP {n a : Str} {j : Nat}
    (h : occursAtP n a j) : containsStr a n = true := by
  obtain ⟨u, v, rfl, -⟩ := h
  induction u with
  | nil =>
    have hpre : n.isPrefixOf (n ++ v) = true :=
      List.isPrefixOf_iff_prefix.mpr ⟨v, rfl⟩
    rw [containsStr, List.nil_append, strFindIdx.eq_def, if_pos hpre]
    rfl
  | cons c u' ih =>
    rw [containsStr, List.cons_append, List.cons_append, strFindIdx.eq_def]
    split
    · rfl
    · simp only [containsStr] at ih
      simpa using ih

/-- No occurrence anywhere when containment fails. -/
theorem noOcc_of_not_contains {n a : Str} (h : containsStr a n = false) :
    ∀ j, ¬ occursAtP n a j := by
  intro j hj
  rw [containsStr_of_occursAtP hj] at h
  cases h

/-- A needle longer than the haystack occurs nowhere. -/
theorem noOcc_short {n b : Str} (h : b.length < n.length) :
    ∀ j, ¬ occursAtP n b j := by
  intro j hj
  rw [occursAtP_iff] at hj
  omega

/-- No occurrence in an append whose left part ends in a character foreign to
the needle. -/
theorem noOcc_append_left_char {n a b : Str} {c : Char}
    (ha : ∀ j, ¬ occursAtP n a j) (hb : ∀ j, ¬ occursAtP n b j)
    (hlast : a.getLast? = some c) (hc : c ∉ n) :
    ∀ j, ¬ occursAtP n (a ++ b) j := by
  intro j hj
  rcases occursAtP_append n a b j hj with h1 | ⟨-, h2⟩ |
    ⟨-, -, n1, n2, hn, hn1, -, hsuf, -⟩
  · exact ha j h1
  · exact hb _ h2
  · have h3 : a.getLast? = n1.getLast? := getLast?_of_suffix hsuf hn1
    rw [hlast] at h3
    have h4 : c ∈ n1 := List.mem_of_getLast?_eq_some h3.symm
    exact hc (hn ▸ List.mem_append_left n2 h4)

/-- No occurrence in an append whose right part starts with a character
foreign to the needle. -/
theorem noOcc_append_right_char {n a b : Str} {c : Char}
    (ha : ∀ j, ¬ occursAtP n a j) (hb : ∀ j, ¬ occursAtP n b j)
    (hhead : b.head? = some c) (hc : c ∉ n) :
    ∀ j, ¬ occursAtP n (a ++ b) j := by
  intro j hj
  rcases occursAtP_append n a b j hj with h1 | ⟨-, h2⟩ |
    ⟨-, -, n1, n2, hn, -, hn2, -, hpre⟩
  · exact ha j h1
  · exact hb _ h2
  · obtain ⟨rest, rfl⟩ := List.isPrefixOf_iff_prefix.mp
      (List.isPrefixOf_iff_prefix.mpr hpre)
    cases n2 with
    | nil => exact hn2 rfl
    | cons d n2' =>
      rw [List.cons_append, List.head?_cons, Option.some.injEq] at hhead
      subst hhead
      exact hc (hn ▸ List.mem_append_right n1 (List.mem_cons_self _ n2'))

/-- `pyStrip` via `rdropWhile`. -/
theorem pyStrip_eq_rdrop (t : Str) :
    pyStrip t = List.rdropWhile isPySpace (t.dropWhile isPySpace) := rfl

/-- A string equal to its own strip neither starts nor ends in whitespace. -/
theorem pyStrip_self_parts {t : Str} (h : pyStrip t = t) :
    t.dropWhile isPySpace = t ∧ List.rdropWhile isPySpace t = t := by
  have hsuf : t.dropWhile isPySpace <:+ t := List.dropWhile_suffix _
  have hpre : pyStrip t <+: t.dropWhile isPySpace := by
    rw [pyStrip_eq_rdrop]
    exact List.rdropWhile_prefix _ _
  have hlen : (t.dropWhile isPySpace).length = t.length := by
    have l1 := List.IsPrefix.length_le hpre
    have l2 := List.IsSuffix.length_le hsuf
    rw [h] at l1
    omega
  have hdw : t.dropWhile isPySpace = t := hsuf.eq_of_length hlen
  refine ⟨hdw, ?_⟩
  rw [← hdw]
  rw [← pyStrip_eq_rdrop, h, hdw]

/-- The head of a stripped non-empty string is not whitespace. -/
theorem stripped_head {t : Str} (h : pyStrip t = t) :
    ∀ c, t.head? = some c → isPySpace c = false := by
  intro c hc
  cases t with
  | nil => simp at hc
  | cons d rest =>
    rw [List.head?_cons, Option.some.injEq] at hc
    rw [← hc]
    have hdw := (pyStrip_self_parts h).1
    rw [List.dropWhile_cons] at hdw
    by_cases hd : isPySpace d = true
    · rw [if_pos hd] at hdw
      have hlc := congrArg List.length hdw
      have hle :=
        (show List.dropWhile isPySpace rest <:+ rest from
          List.dropWhile_suffix isPySpace).length_le
      simp at hlc
      omega
    · cases hval : isPySpace d
      · rfl
      · exact absurd hval hd

/-- The last character of a stripped non-empty string is not whitespace. -/
theorem stripped_last {t : Str} (h : pyStrip t = t) :
    ∀ c, t.getLast? = some c → isPySpace c = false := by
  intro c hc
  have hrd := (pyStrip_self_parts h).2
  have hne : t ≠ [] := by
    intro h0
    rw [h0] at hc
    simp at hc
  have := List.rdropWhile_eq_self_iff.mp hrd hne
  rw [List.getLast?_eq_getLast t hne, Option.some.injEq] at hc
  rw [← hc]
  cases hval : isPySpace (t.getLast hne)
  · rfl
  · exact absurd (by simp [hval]) this

/-- Strip is unchanged by a head and last character that are not whitespace. -/
theorem pyStrip_eq_self_of {t : Str}
    (hh : ∀ c, t.head? = some c → isPySpace c = false)
    (hl : ∀ c, t.getLast? = some c → isPySpace c = false) : pyStrip t = t := by
  rw [pyStrip_eq_rdrop]
  have hd : t.dropWhile isPySpace = t := by
    cases t with
    | nil => rfl
    | cons c rest =>
      rw [List.dropWhile_cons, if_neg (by simp [hh c rfl])]
  rw [hd]
  rw [List.rdropWhile_eq_self_iff]
  intro hne hsp
  have := hl (t.getLast hne) (List.getLast?_eq_getLast t hne)
  rw [this] at hsp
  exact absurd hsp (by decide)

/-- Strip drops a leading space. -/
theorem pyStrip_cons_space (t : Str) : pyStrip (' ' :: t) = pyStrip t := by
  rw [pyStrip_eq_rdrop, pyStrip_eq_rdrop, List.dropWhile_cons,
    if_pos (by decide)]

/-- Strip drops a trailing space after a stripped string. -/
theorem pyStrip_append_space {t : Str} (h : pyStrip t = t) :
    pyStrip (t ++ [' ']) = t := by
  rcases eq_or_ne t [] with rfl | hne
  · decide
  · obtain ⟨c, rest, rfl⟩ := List.exists_cons_of_ne_nil hne
    rw [pyStrip_eq_rdrop, List.cons_append, List.dropWhile_cons,
      if_neg (by simp [stripped_head h c rfl]), ← List.cons_append,
      List.rdropWhile_concat, if_pos (by decide)]
    exact (pyStrip_self_parts h).2

/-- `strRFind` fails on a haystack shorter than the needle. -/
theorem strRFind_short {n : Str} : ∀ t : Str, t.length < n.length →
    strRFind t n = none := by
  intro t
  induction t with
  | nil =>
    intro hlen
    have : n ≠ [] := by
      intro h0
      rw [h0] at hlen
      simp at hlen
    simp [strRFind, this]
  | cons c rest ih =>
    intro hlen
    rw [strRFind, ih (by simp at hlen ⊢; omega)]
    rw [if_neg]
    intro hp
    have := List.IsPrefix.length_le (List.isPrefixOf_iff_prefix.mp hp)
    simp at this hlen
    omega

/-- `strRFind` of a string in itself is zero. -/
theorem strRFind_self {n : Str} (hne : n ≠ []) : strRFind n n = some 0 := by
  obtain ⟨c, rest, rfl⟩ := List.exists_cons_of_ne_nil hne
  rw [strRFind, strRFind_short rest (by simp),
    if_pos (List.isPrefixOf_iff_prefix.mpr List.prefix_rfl)]

/-- A successful `strRFind` in the right part shifts by the left length. -/
theorem strRFind_append_some {y n : Str} {j : Nat} (h : strRFind y n = some j) :
    ∀ x : Str, strRFind (x ++ y) n = some (x.length + j) := by
  intro x
  induction x with
  | nil => simpa using h
  | cons c x' ih =>
    rw [List.cons_append, strRFind, ih]
    simp
    omega

/-- Replacement is the identity when the pattern does not occur. -/
theorem replaceAllFuel_id {old t : Str} (new : Str)
    (h : containsStr t old = false) (hne : old ≠ []) :
    ∀ fuel, replaceAllFuel old new fuel t = t := by
  intro fuel
  induction fuel generalizing t with
  | zero => rfl
  | succ m ih =>
    rw [replaceAllFuel.eq_def]
    dsimp only
    rw [if_neg hne, if_neg ?hp]
    case hp =>
      intro hp
      rw [containsStr, strFindIdx.eq_def, if_pos hp] at h
      simp at h
    cases t with
    | nil => rfl
    | cons c t2 =>
      have h2 : containsStr t2 old = false := by
        rw [containsStr, strFindIdx.eq_def] at h
        split at h
        · simp at h
        · simpa [containsStr] using h
      dsimp only
      rw [ih h2]

/-- An occurrence of a string within itself is at position zero. -/
theorem occ_self_zero {n : Str} {k : Nat} (h : occursAtP n n k) : k = 0 := by
  rw [occursAtP_iff] at h
  omega

/-- In `X ++ ce` with `X` ending in a space foreign to `ce` and `ce` not
occurring in `X`, the only occurrence of `ce` is at the end. -/
theorem occ_line {ce X : Str} {i : Nat} (hlast : X.getLast? = some ' ')
    (hsp : ' ' ∉ ce) (hin : ∀ j, ¬ occursAtP ce X j)
    (h : occursAtP ce (X ++ ce) i) : i = X.length := by
  rcases occursAtP_append ce X ce i h with h1 | ⟨hle, h2⟩ |
    ⟨-, -, n1, n2, hn, hn1, -, hsuf, -⟩
  · exact absurd h1 (hin i)
  · have h0 := occ_self_zero h2
    omega
  · have h3 : X.getLast? = n1.getLast? := getLast?_of_suffix hsuf hn1
    rw [hlast] at h3
    have h4 : ' ' ∈ n1 := List.mem_of_getLast?_eq_some h3.symm
    exact absurd (hn ▸ List.mem_append_left n2 h4) hsp

/-- An occurrence of a newline-free needle in two newline-separated parts lies
entirely in one of the parts. -/
theorem occ_sep {n L1 L2 : Str} {i : Nat} (hnl : '\n' ∉ n) (hne : n ≠ [])
    (h : occursAtP n (L1 ++ '\n' :: L2) i) :
    occursAtP n L1 i ∨
      (L1.length + 1 ≤ i ∧ occursAtP n L2 (i - (L1.length + 1))) := by
  have h' : occursAtP n (L1 ++ ('\n' :: L2)) i := h
  rcases occursAtP_append n L1 ('\n' :: L2) i h' with h1 | ⟨hle, h2⟩ |
    ⟨-, -, n1, n2, hn, -, hn2, -, hpre⟩
  · exact Or.inl h1
  · have h2' : occursAtP n (['\n'] ++ L2) (i - L1.length) := h2
    rcases occursAtP_append n ['\n'] L2 _ h2' with hA | ⟨hle2, hB⟩ |
      ⟨-, -, m1, m2, hm, hm1, -, hsuf2, -⟩
    · rw [occursAtP_iff] at hA
      obtain ⟨hl1, heq1⟩ := hA
      have hlen1 : 1 ≤ n.length := List.length_pos.mpr hne
      have hj0 : i - L1.length = 0 := by simp at hl1; omega
      have hn1len : n.length = 1 := by simp at hl1; omega
      rw [hj0, List.drop_zero, hn1len] at heq1
      simp at heq1
      rw [← heq1] at hnl
      exact absurd (List.mem_cons_self _ _) hnl
    · refine Or.inr ⟨?_, ?_⟩
      · simp at hle2
        omega
      · have hB' := hB
        rw [show (['\n'] : Str).length = 1 from rfl, Nat.sub_sub] at hB'
        exact hB'
    · have h3 : (['\n'] : Str).getLast? = m1.getLast? :=
        getLast?_of_suffix hsuf2 hm1
      have h4 : '\n' ∈ m1 := List.mem_of_getLast?_eq_some (by simpa using h3.symm)
      exact absurd (hm ▸ List.mem_append_left m2 h4) hnl
  · obtain ⟨rest, hrest⟩ := hpre
    cases n2 with
    | nil => exact absurd rfl hn2
    | cons d n2' =>
      rw [List.cons_append] at hrest
      injection hrest with hd hrest2
      subst hd
      exact absurd (hn ▸ List.mem_append_right n1 (List.mem_cons_self _ n2')) hnl

/-- C5 counterexample: merging the single-line block header
`/* Copyright 2020 */ */` (which ends with the end marker) with the new
header `File: new.c` produces a text containing the doubled closer
`*/ */`: the code trims only from the LAST occurrence of the end marker
on, so an earlier stray closer survives and is closed again. -/
theorem c5_counterexample :
    strEndsWith (s "/* Copyright 2020 */ */") (s "*/") = true ∧
    merge_headers (s "/* Copyright 2020 */ */") (s "File: new.c")
        (s "/*") (s "*/") =
      s "/* File: new.c */\n/* Copyright 2020 */ */" ∧
    hasDoubledCloser (s "*/")
      (merge_headers (s "/* Copyright 2020 */ */") (s "File: new.c")
        (s "/*") (s "*/")) := by
  refine ⟨by decide, by decide, ?_⟩
  exact ⟨s "/* File: new.c */\n/* Copyright 2020 ", s " ", [],
    by decide, by decide⟩

/-- Extracting the file path from a clean `File: p` new header yields `p`. -/
theorem mergeFilePath_file {p ce : Str} (hps : pyStrip p = p)
    (hpc : ce ≠ [] → containsStr p ce = false)
    (hpF : containsStr p (s "File:") = false) :
    mergeFilePath (s "File: " ++ p) ce = p := by
  have hrepl : replaceAll (s "File: " ++ p) (s "File:") [] = ' ' :: p := by
    have h6 : (s "File: " ++ p).length = (p.length + 4) + 1 + 1 := by
      rw [List.length_append, show (s "File: " : Str).length = 6 from by decide]
      omega
    rw [replaceAll, h6, replaceAllFuel.eq_def]
    dsimp only
    rw [if_neg (by decide : ¬(s "File:" : Str) = []), if_pos ?hpre]
    case hpre =>
      rw [show (s "File: " : Str) = s "File:" ++ [' '] from by decide,
        List.append_assoc]
      exact List.isPrefixOf_iff_prefix.mpr ⟨[' '] ++ p, rfl⟩
    have hdrop : (s "File: " ++ p).drop (s "File:" : Str).length = ' ' :: p := by
      rw [show (s "File: " : Str) = s "File:" ++ [' '] from by decide,
        List.append_assoc, List.drop_left]
      rfl
    rw [hdrop, List.nil_append, replaceAllFuel.eq_def]
    dsimp only
    rw [if_neg (by decide : ¬(s "File:" : Str) = []), if_neg ?hp2]
    case hp2 =>
      intro hp
      obtain ⟨t, ht⟩ := List.isPrefixOf_iff_prefix.mp hp
      rw [show (s "File:" : Str) = 'F' :: s "ile:" from by decide,
        List.cons_append] at ht
      injection ht with h1 h2
      exact absurd h1 (by decide)
    rw [replaceAllFuel_id [] hpF (by decide) (p.length + 4)]
  have hfp0 : pyStrip (replaceAll (s "File: " ++ p) (s "File:") []) = p := by
    rw [hrepl, pyStrip_cons_space, hps]
  simp only [mergeFilePath, hfp0]
  rw [if_neg ?hcond]
  case hcond =>
    rintro ⟨hce, hends⟩
    obtain ⟨u, hu⟩ := List.isSuffixOf_iff_suffix.mp hends
    have hocc : occursAtP ce p u.length := ⟨u, [], by simp [hu], rfl⟩
    have hpc2 := hpc hce
    rw [containsStr_of_occursAtP hocc] at hpc2
    cases hpc2

/-- `_merge_headers` on a clean single-line existing header yields the
standard header line, optionally followed by the existing line kept as
metadata. -/
theorem merge_single_line {cs ce t p : Str}
    (hcs_ne : cs ≠ []) (hce_ne : ce ≠ [])
    (hcs_head : ∀ c, cs.head? = some c → isPySpace c = false)
    (hce_last : ∀ c, ce.getLast? = some c → isPySpace c = false)
    (hcs_nl : '\n' ∉ cs) (hce_nl : '\n' ∉ ce)
    (ht_strip : pyStrip t = t) (ht_ne : t ≠ []) (ht_nl : '\n' ∉ t)
    (hp_strip : pyStrip p = p)
    (hp_ce : containsStr p ce = false)
    (hp_F : containsStr p (s "File:") = false) :
    merge_headers (cs ++ ' ' :: t ++ ' ' :: ce) (s "File: " ++ p) cs ce =
        standardHeaderLine cs ce p ∨
      merge_headers (cs ++ ' ' :: t ++ ' ' :: ce) (s "File: " ++ p) cs ce =
        standardHeaderLine cs ce p ++ '\n' :: (cs ++ ' ' :: t ++ ' ' :: ce) := by
  have hex_ne : (cs ++ ' ' :: t) ++ ' ' :: ce ≠ [] := by simp
  have hhead_ex : ((cs ++ ' ' :: t) ++ ' ' :: ce).head? = cs.head? := by
    cases cs with
    | nil => exact absurd rfl hcs_ne
    | cons a l => simp
  have hlast_ex : ((cs ++ ' ' :: t) ++ ' ' :: ce).getLast? = ce.getLast? := by
    rw [getLast?_append_right _ _ (by simp)]
    exact getLast?_append_right [' '] ce hce_ne
  have hex_strip :
      pyStrip ((cs ++ ' ' :: t) ++ ' ' :: ce) = (cs ++ ' ' :: t) ++ ' ' :: ce := by
    refine pyStrip_eq_self_of ?_ ?_
    · intro c hc
      rw [hhead_ex] at hc
      exact hcs_head c hc
    · intro c hc
      rw [hlast_ex] at hc
      exact hce_last c hc
  have hex_nl : '\n' ∉ (cs ++ ' ' :: t) ++ ' ' :: ce := by
    intro h
    simp only [List.mem_append, List.mem_cons] at h
    rcases h with (h | h | h) | (h | h)
    · exact hcs_nl h
    · exact absurd h (by decide)
    · exact ht_nl h
    · exact absurd h (by decide)
    · exact hce_nl h
  have hdrop_cs :
      ((cs ++ ' ' :: t) ++ ' ' :: ce).drop cs.length = ' ' :: (t ++ ' ' :: ce) := by
    rw [List.append_assoc, List.drop_left]
    rfl
  have ht_head := stripped_head ht_strip
  have hmt0_strip : pyStrip (t ++ ' ' :: ce) = t ++ ' ' :: ce := by
    refine pyStrip_eq_self_of ?_ ?_
    · intro c hc
      cases t with
      | nil => exact absurd rfl ht_ne
      | cons a l =>
        rw [List.cons_append, List.head?_cons, Option.some.injEq] at hc
        rw [← hc]
        exact ht_head a rfl
    · intro c hc
      rw [getLast?_append_right t (' ' :: ce) (by simp)] at hc
      have hsp : (' ' :: ce : Str).getLast? = ce.getLast? :=
        getLast?_append_right [' '] ce hce_ne
      rw [hsp] at hc
      exact hce_last c hc
  have hmt0 : mergeMetaText cs ce ((cs ++ ' ' :: t) ++ ' ' :: ce) = t := by
    simp only [mergeMetaText]
    rw [hex_strip, hdrop_cs, pyStrip_cons_space, hmt0_strip]
    have hocc : occursAtP ce (t ++ ' ' :: ce) (t ++ [' ']).length :=
      ⟨t ++ [' '], [], by simp, rfl⟩
    have hcont := containsStr_of_occursAtP hocc
    rw [if_pos ⟨hce_ne, hcont⟩]
    have hrf : strRFind (t ++ ' ' :: ce) ce = some (t.length + 1) := by
      have h1 := strRFind_append_some (strRFind_self hce_ne) (t ++ [' '])
      have h2 : (t ++ [' ']) ++ ce = t ++ ' ' :: ce := by simp
      rw [h2] at h1
      simpa using h1
    rw [hrf]
    simp only [Option.getD_some]
    have htake : (t ++ ' ' :: ce).take (t.length + 1) = t ++ [' '] := by
      have h2 : t ++ ' ' :: ce = (t ++ [' ']) ++ ce := by simp
      rw [h2, show t.length + 1 = (t ++ [' ']).length from by simp]
      exact List.take_left _ _
    rw [htake]
    exact pyStrip_append_space ht_strip
  have hstart : strStartsWith ((cs ++ ' ' :: t) ++ ' ' :: ce) cs = true := by
    rw [strStartsWith]
    refine List.isPrefixOf_iff_prefix.mpr ⟨(' ' :: t) ++ ' ' :: ce, ?_⟩
    rw [← List.append_assoc]
  have hml : mergeMetaLine cs ce ((cs ++ ' ' :: t) ++ ' ' :: ce) =
      if isFilePathLine ((cs ++ ' ' :: t) ++ ' ' :: ce) then none
      else some ((cs ++ ' ' :: t) ++ ' ' :: ce) := by
    simp only [mergeMetaLine]
    rw [hex_strip, if_neg hex_ne]
    by_cases hfp : isFilePathLine ((cs ++ ' ' :: t) ++ ' ' :: ce) = true
    · rw [if_pos hfp, if_pos hfp]
    · rw [if_neg hfp, if_neg hfp, if_pos hstart, hmt0, if_pos ht_ne,
        if_pos hce_ne]
  have hsplit : splitOnNL (pyStrip ((cs ++ ' ' :: t) ++ ' ' :: ce)) =
      [(cs ++ ' ' :: t) ++ ' ' :: ce] := by
    rw [hex_strip]
    exact splitOnNL_nl_free _ hex_nl
  by_cases hfp : isFilePathLine ((cs ++ ' ' :: t) ++ ' ' :: ce) = true
  · left
    have hmd : List.filterMap (mergeMetaLine cs ce)
        [(cs ++ ' ' :: t) ++ ' ' :: ce] = [] := by
      rw [List.filterMap_cons, hml, if_pos hfp]
      rfl
    simp only [merge_headers]
    rw [mergeFilePath_file hp_strip (fun _ => hp_ce) hp_F, hsplit, hmd]
    rw [if_neg (by simp)]
  · right
    have hmd : List.filterMap (mergeMetaLine cs ce)
        [(cs ++ ' ' :: t) ++ ' ' :: ce] =
        [(cs ++ ' ' :: t) ++ ' ' :: ce] := by
      rw [List.filterMap_cons, hml, if_neg hfp]
      rfl
    simp only [merge_headers]
    rw [mergeFilePath_file hp_strip (fun _ => hp_ce) hp_F, hsplit, hmd]
    rw [if_pos (by simp)]
    rfl

/-- A single line `A ++ ce` whose prefix `A` ends in a space and is free of
`ce` admits no doubled closer. -/
theorem noDoubled_one_line {ce A : Str}
    (hce_ne : ce ≠ []) (hce_sp : ' ' ∉ ce)
    (hA_last : A.getLast? = some ' ')
    (noOccA : ∀ j, ¬ occursAtP ce A j) :
    ¬ hasDoubledCloser ce (A ++ ce) := by
  rintro ⟨u, w, v, hw, heq⟩
  have hocc1 : occursAtP ce (A ++ ce) u.length :=
    ⟨u, w ++ ce ++ v, by rw [heq]; simp, rfl⟩
  have hocc2 : occursAtP ce (A ++ ce) (u ++ ce ++ w).length :=
    ⟨u ++ ce ++ w, v, by rw [heq], rfl⟩
  have hlce : 1 ≤ ce.length := List.length_pos.mpr hce_ne
  have h1 := occ_line hA_last hce_sp noOccA hocc1
  have h2 := occ_line hA_last hce_sp noOccA hocc2
  simp at h2
  omega

/-- Two lines `A ++ ce` and `B ++ ce`, separated by a newline, admit no
doubled closer when `A` and `B` end in spaces, are free of `ce`, and `B`
contains a non-whitespace character. -/
theorem noDoubled_two_lines {ce A B : Str}
    (hce_ne : ce ≠ []) (hce_nl : '\n' ∉ ce) (hce_sp : ' ' ∉ ce)
    (hA_last : A.getLast? = some ' ') (hB_last : B.getLast? = some ' ')
    (noOccA : ∀ j, ¬ occursAtP ce A j) (noOccB : ∀ j, ¬ occursAtP ce B j)
    (hBad : ∃ a ∈ B, isPySpace a = false) :
    ¬ hasDoubledCloser ce ((A ++ ce) ++ '\n' :: (B ++ ce)) := by
  rintro ⟨u, w, v, hw, heq⟩
  have hocc1 : occursAtP ce ((A ++ ce) ++ '\n' :: (B ++ ce)) u.length :=
    ⟨u, w ++ ce ++ v, by rw [heq]; simp, rfl⟩
  have hocc2 : occursAtP ce ((A ++ ce) ++ '\n' :: (B ++ ce))
      (u ++ ce ++ w).length :=
    ⟨u ++ ce ++ w, v, by rw [heq], rfl⟩
  have hlce : 1 ≤ ce.length := List.length_pos.mpr hce_ne
  rcases occ_sep hce_nl hce_ne hocc1 with ha1 | ⟨hge1, ha1⟩
  · have h1 := occ_line hA_last hce_sp noOccA ha1
    rcases occ_sep hce_nl hce_ne hocc2 with ha2 | ⟨hge2, ha2⟩
    · have h2 := occ_line hA_last hce_sp noOccA ha2
      simp at h2
      omega
    · have h2 := occ_line hB_last hce_sp noOccB ha2
      obtain ⟨hu_std, hrest⟩ := List.append_inj
        (show (u ++ ce) ++ (w ++ (ce ++ v)) =
            (A ++ ce) ++ '\n' :: (B ++ ce) by rw [heq]; simp)
        (by simp; omega)
      cases w with
      | nil =>
        cases ce with
        | nil => exact hce_ne rfl
        | cons e ce' =>
          rw [List.nil_append, List.cons_append] at hrest
          injection hrest with he hrest2
          rw [← he] at hce_nl
          exact absurd (List.mem_cons_self _ _) hce_nl
      | cons d w' =>
        rw [List.cons_append] at hrest
        injection hrest with hd hrest2
        have hw'len : w'.length = B.length := by
          simp at hge2 h2
          omega
        obtain ⟨hw'B, -⟩ := List.append_inj hrest2 hw'len
        obtain ⟨a, haB, haSp⟩ := hBad
        have haw' : a ∈ w' := by
          rw [hw'B]
          exact haB
        have := hw a (List.mem_cons_of_mem d haw')
        rw [haSp] at this
        cases this
  · rcases occ_sep hce_nl hce_ne hocc2 with ha2 | ⟨hge2, ha2⟩
    · have h1 := occ_line hB_last hce_sp noOccB ha1
      have h2 := occ_line hA_last hce_sp noOccA ha2
      simp at hge1 h1 h2
      omega
    · have h1 := occ_line hB_last hce_sp noOccB ha1
      have h2 := occ_line hB_last hce_sp noOccB ha2
      simp at hge1 hge2 h1 h2
      omega

/-- Head non-whitespace from the `headD` form. -/
theorem head_nonspace_of_headD {l : Str} (h : isPySpace (l.headD 'x') = false) :
    ∀ c, l.head? = some c → isPySpace c = false := by
  intro c hc
  cases l with
  | nil => simp at hc
  | cons a l' =>
    rw [List.head?_cons, Option.some.injEq] at hc
    rw [← hc]
    simpa using h

/-- Last character non-whitespace from the `getLastD` form. -/
theorem last_nonspace_of_getLastD {l : Str}
    (h : isPySpace (l.getLastD 'x') = false) :
    ∀ c, l.getLast? = some c → isPySpace c = false := by
  intro c hc
  have he : l.getLastD 'x' = c := by
    rw [List.getLastD_eq_getLast?, hc]
    rfl
  rw [← he]
  exact h

/-- C5 (amended): for the block-comment dialects `/* */`, `<!-- -->` and
`(* *)` and an existing single-line header `cs ++ ' ' ++ t ++ ' ' ++ ce`
(which ends with the end marker), with clean header text `t` and new path
`p` free of the end marker, the output of `_merge_headers` never contains
the end marker immediately repeated with only whitespace between the two
occurrences. Without the cleanliness assumptions the guarantee fails
(`c5_counterexample`): only a trailing end marker reached by `rfind` is
trimmed before re-appending. -/
theorem c5_no_doubled_closer {cs ce t p : Str}
    (hdial : (cs, ce) ∈ [((s "/*" : Str), (s "*/" : Str)),
      (s "<!--", s "-->"), (s "(*", s "*)")])
    (ht_strip : pyStrip t = t) (ht_ne : t ≠ []) (ht_nl : '\n' ∉ t)
    (ht_ce : containsStr t ce = false)
    (hp_strip : pyStrip p = p)
    (hp_ce : containsStr p ce = false)
    (hp_F : containsStr p (s "File:") = false) :
    strEndsWith (cs ++ ' ' :: t ++ ' ' :: ce) ce = true ∧
    ¬ hasDoubledCloser ce
      (merge_headers (cs ++ ' ' :: t ++ ' ' :: ce) (s "File: " ++ p) cs ce) := by
  have hfacts : ∀ d ∈ [((s "/*" : Str), (s "*/" : Str)),
      (s "<!--", s "-->"), (s "(*", s "*)")],
      d.1 ≠ [] ∧ d.2 ≠ [] ∧
      isPySpace (d.1.headD 'x') = false ∧
      isPySpace (d.2.getLastD 'x') = false ∧
      '\n' ∉ d.1 ∧ '\n' ∉ d.2 ∧ ' ' ∉ d.2 ∧ 1 < d.2.length ∧
      containsStr d.1 d.2 = false ∧
      containsStr (d.1 ++ s " File: ") d.2 = false ∧
      (d.1 ++ s " File: ").getLast? = some ' ' := by decide
  obtain ⟨hf1, hf2, hf3, hf4, hf5, hf6, hf7, hf8, hf9, hf10, hf11⟩ :=
    hfacts (cs, ce) hdial
  have hcs_ne : cs ≠ [] := hf1
  have hce_ne : ce ≠ [] := hf2
  have hcs_hd : isPySpace (cs.headD 'x') = false := hf3
  have hce_lst : isPySpace (ce.getLastD 'x') = false := hf4
  have hcs_nl : '\n' ∉ cs := hf5
  have hce_nl : '\n' ∉ ce := hf6
  have hce_sp : ' ' ∉ ce := hf7
  have hce_len : 1 < ce.length := hf8
  have h_cs_ce : containsStr cs ce = false := hf9
  have h_csF_ce : containsStr (cs ++ s " File: ") ce = false := hf10
  have h_csF_last : (cs ++ s " File: ").getLast? = some ' ' := hf11
  have hcs_head := head_nonspace_of_headD hcs_hd
  have hce_last := last_nonspace_of_getLastD hce_lst
  constructor
  · rw [strEndsWith]
    exact List.isSuffixOf_iff_suffix.mpr ⟨(cs ++ ' ' :: t) ++ [' '], by simp⟩
  · intro hdc
    have hstd : standardHeaderLine cs ce p =
        ((cs ++ s " File: " ++ p) ++ [' ']) ++ ce := by
      rw [standardHeaderLine, if_pos hce_ne]
      simp
    have hA_last : ((cs ++ s " File: " ++ p) ++ [' ']).getLast? = some ' ' :=
      List.getLast?_concat _
    have hB_last : ((cs ++ ' ' :: t) ++ [' ']).getLast? = some ' ' :=
      List.getLast?_concat _
    have noOccP : ∀ j, ¬ occursAtP ce (p ++ [' ']) j :=
      noOcc_append_right_char (noOcc_of_not_contains hp_ce)
        (noOcc_short (by simpa using hce_len)) rfl hce_sp
    have noOccA : ∀ j, ¬ occursAtP ce ((cs ++ s " File: " ++ p) ++ [' ']) j := by
      have h1 : ∀ j, ¬ occursAtP ce ((cs ++ s " File: ") ++ (p ++ [' '])) j :=
        noOcc_append_left_char (noOcc_of_not_contains h_csF_ce) noOccP
          h_csF_last hce_sp
      intro j hj
      refine h1 j ?_
      have he : (cs ++ s " File: ") ++ (p ++ [' ']) =
          (cs ++ s " File: " ++ p) ++ [' '] := by simp
      rw [he]
      exact hj
    have noOccT : ∀ j, ¬ occursAtP ce ((' ' :: t) ++ [' ']) j := by
      have hsp : ∀ j, ¬ occursAtP ce ([' '] ++ t) j :=
        noOcc_append_left_char (noOcc_short (by simpa using hce_len))
          (noOcc_of_not_contains ht_ce) (by decide) hce_sp
      exact noOcc_append_right_char hsp
        (noOcc_short (by simpa using hce_len)) rfl hce_sp
    have noOccB : ∀ j, ¬ occursAtP ce ((cs ++ ' ' :: t) ++ [' ']) j := by
      have h1 : ∀ j, ¬ occursAtP ce (cs ++ ((' ' :: t) ++ [' '])) j :=
        noOcc_append_right_char (noOcc_of_not_contains h_cs_ce) noOccT rfl hce_sp
      intro j hj
      refine h1 j ?_
      have he : cs ++ ((' ' :: t) ++ [' ']) = (cs ++ ' ' :: t) ++ [' '] := by
        simp
      rw [he]
      exact hj
    have hBad : ∃ a ∈ (cs ++ ' ' :: t) ++ [' '], isPySpace a = false := by
      obtain ⟨a, cs', hcs_eq⟩ := List.exists_cons_of_ne_nil hcs_ne
      refine ⟨a, ?_, ?_⟩
      · rw [hcs_eq]
        simp
      · have he : cs.headD 'x' = a := by
          rw [hcs_eq]
          rfl
        rw [← he]
        exact hcs_hd
    rcases merge_single_line hcs_ne hce_ne hcs_head hce_last hcs_nl hce_nl
      ht_strip ht_ne ht_nl hp_strip hp_ce hp_F with hme | hme
    · rw [hme, hstd] at hdc
      exact noDoubled_one_line hce_ne hce_sp hA_last noOccA hdc
    · rw [hme, hstd] at hdc
      have hex : (cs ++ ' ' :: t ++ ' ' :: ce) =
          ((cs ++ ' ' :: t) ++ [' ']) ++ ce := by
        simp
      rw [hex] at hdc
      exact noDoubled_two_lines hce_ne hce_nl hce_sp hA_last hB_last
        noOccA noOccB hBad hdc

/-- Witness for `c5_no_doubled_closer`: C dialect, existing header
`/* Copyright 2020 */`, new path `new.c`. -/
theorem c5_witness :
    strEndsWith (s "/*" ++ ' ' :: s "Copyright 2020" ++ ' ' :: s "*/")
        (s "*/") = true ∧
    ¬ hasDoubledCloser (s "*/")
      (merge_headers (s "/*" ++ ' ' :: s "Copyright 2020" ++ ' ' :: s "*/")
        (s "File: " ++ s "new.c") (s "/*") (s "*/")) :=
  @c5_no_doubled_closer (s "/*") (s "*/") (s "Copyright 2020") (s "new.c")
    (by decide) (by decide) (by decide) (by decide) (by decide)
    (by decide) (by decide) (by decide)

/-- C1 counterexample: processing `# hello\nx` (a Python file with a leading
ordinary comment) produces a first result; running `_determine_new_content`
again on that result yields new content different from it (the header-capture
loop absorbs the ordinary comment into the header block on the second pass),
so a second pass is neither a no-op nor `unchanged`. -/
theorem c1_counterexample :
    determine_new_content (s ".py") (s "# hello\nx") (s "#") [] (s "# File: p") =
      some (s "# File: p\n\n# hello\nx\n") ∧
    ¬ (determine_new_content (s ".py") (s "# File: p\n\n# hello\nx\n")
          (s "#") [] (s "# File: p") = none ∨
        determine_new_content (s ".py") (s "# File: p\n\n# hello\nx\n")
          (s "#") [] (s "# File: p") =
          some (s "# File: p\n\n# hello\nx\n")) :=
  ⟨by decide, by decide⟩

/-- Universal-newline translation is the identity on carriage-return-free
text. -/
theorem translateNL_id : ∀ {t : Str}, '\r' ∉ t → translateNL t = t := by
  intro t
  induction t with
  | nil => intro h; rfl
  | cons c rest ih =>
    intro h
    have hc : c ≠ '\r' := by
      intro he
      exact h (he ▸ List.mem_cons_self c rest)
    have hr : '\r' ∉ rest := fun hm => h (List.mem_cons_of_mem c hm)
    rw [translateNL.eq_def]
    split
    · rename_i heq
      exact absurd heq (List.cons_ne_nil c rest)
    · rename_i heq
      injection heq with h1 h2
      exact absurd h1 hc
    · rename_i c' rest' hne1 heq
      injection heq with h1 h2
      subst h1
      subst h2
      rw [if_neg hc, ih hr]

/-- `strFindIdx` finds an occurrence no later than any given one. -/
theorem strFindIdx_le_of_occ {n h : Str} : ∀ {i : Nat}, occursAtP n h i →
    ∃ j, strFindIdx h n = some j ∧ j ≤ i := by
  induction h with
  | nil =>
    intro i hocc
    obtain ⟨u, v, he, hi⟩ := hocc
    obtain ⟨h1, h2⟩ := List.append_eq_nil.mp he.symm
    obtain ⟨h3, h4⟩ := List.append_eq_nil.mp h1
    subst h3
    exact ⟨0, by rw [strFindIdx.eq_def, h4]; rfl, by simp at hi; omega⟩
  | cons c h' ih =>
    intro i hocc
    rw [strFindIdx.eq_def]
    by_cases hp : n.isPrefixOf (c :: h') = true
    · rw [if_pos hp]
      exact ⟨0, rfl, Nat.zero_le i⟩
    · rw [if_neg hp]
      dsimp only
      obtain ⟨u, v, he, hi⟩ := hocc
      cases u with
      | nil =>
        rw [List.nil_append] at he
        exact absurd (List.isPrefixOf_iff_prefix.mpr ⟨v, he.symm⟩) hp
      | cons a u' =>
        rw [List.cons_append, List.cons_append] at he
        injection he with h1 h2
        have hocc' : occursAtP n h' u'.length := ⟨u', v, h2, rfl⟩
        obtain ⟨j, hj, hle⟩ := ih hocc'
        rw [hj]
        refine ⟨j + 1, rfl, ?_⟩
        rw [← hi]
        simp
        omega

/-- `findSome?` when exactly one element of the list produces a value. -/
theorem findSome?_unique {α β : Type} {f : α → Option β} {l : List α} {a : α}
    {b : β} (ha : a ∈ l) (hfa : f a = some b)
    (hother : ∀ x ∈ l, x ≠ a → f x = none) :
    l.findSome? f = some b := by
  induction l with
  | nil => cases ha
  | cons x xs ih =>
    rw [List.findSome?_cons]
    by_cases hx : x = a
    · subst hx
      rw [hfa]
    · rw [hother x (List.mem_cons_self x xs) hx]
      have ha' : a ∈ xs := by
        rcases List.mem_cons.mp ha with h | h
        · exact absurd h.symm hx
        · exact h
      exact ih ha' fun y hy hne => hother y (List.mem_cons_of_mem x hy) hne

/-- A prefix of a list is a prefix of any left-extension target. -/
theorem startsWith_of_startsWith_append {l a b : Str}
    (h : strStartsWith l (a ++ b) = true) : strStartsWith l a = true := by
  rw [strStartsWith] at h ⊢
  exact List.isPrefixOf_iff_prefix.mpr
    (List.IsPrefix.trans ⟨b, rfl⟩ (List.isPrefixOf_iff_prefix.mp h))

/-- A short prefix of an append is a prefix of the left part. -/
theorem prefix_append_short {l A X : Str} (h : l.isPrefixOf (A ++ X) = true)
    (hlen : l.length ≤ A.length) : l.isPrefixOf A = true := by
  have hpre := List.isPrefixOf_iff_prefix.mp h
  have htake := List.prefix_iff_eq_take.mp hpre
  rw [List.take_append_of_le_length hlen] at htake
  exact List.isPrefixOf_iff_prefix.mpr (htake ▸ List.take_prefix l.length A)

/-- Dropping leading blank lines is idempotent. -/
theorem strip_leading_idem (L : List Str) :
    strip_leading_blank_lines (strip_leading_blank_lines L) =
      strip_leading_blank_lines L := by
  simp only [strip_leading_blank_lines]
  cases hd : L.dropWhile fun l => decide (pyStrip l = []) with
  | nil => rfl
  | cons x xs =>
    have := List.head?_dropWhile_not (fun l => decide (pyStrip l = [])) L
    rw [hd] at this
    simp only [List.head?_cons] at this
    rw [List.dropWhile_cons, if_neg (by simpa using this)]

/-- The assembler only sees the body through its leading-blank strip. -/
theorem compose_strip_leading (hb : Str) (L : List Str) :
    compose_with_header_block hb (strip_leading_blank_lines L) =
      compose_with_header_block hb L := by
  simp only [compose_with_header_block, strip_leading_idem]

/-- Joining after appending a final line. -/
theorem joinNL_concat (x : Str) : ∀ (ls : List Str), ls ≠ [] →
    joinNL (ls ++ [x]) = joinNL ls ++ '\n' :: x := by
  intro ls
  induction ls with
  | nil => intro h; exact absurd rfl h
  | cons y rest ih =>
    intro h
    cases rest with
    | nil => rfl
    | cons z rest' =>
      rw [List.cons_append]
      rw [show joinNL (y :: (z :: rest' ++ [x])) =
          y ++ '\n' :: joinNL (z :: rest' ++ [x]) from rfl]
      rw [ih (List.cons_ne_nil z rest')]
      rw [show joinNL (y :: z :: rest') = y ++ '\n' :: joinNL (z :: rest') from
        rfl]
      simp

/-- The metadata collector returns nothing when no line starts with the
comment marker. -/
theorem collectMetaAux_nil_of_no_marker {cs : Str} : ∀ {L : List Str},
    (∀ l ∈ L, strStartsWith (pyStrip l) cs = false) →
    collectMetaAux cs false L = [] := by
  intro L
  induction L with
  | nil => intro h; rfl
  | cons l rest ih =>
    intro h
    rw [collectMetaAux]
    have hl := h l (List.mem_cons_self l rest)
    have hrest : ∀ x ∈ rest, strStartsWith (pyStrip x) cs = false :=
      fun x hx => h x (List.mem_cons_of_mem l hx)
    by_cases hls : pyStrip l = []
    · rw [if_pos hls]
      exact ih hrest
    · rw [if_neg hls, if_neg ?hkw, if_neg (by simp), if_neg (by simp)]
      case hkw =>
        rw [isMetadataKwLine, hl]
        simp
      exact ih hrest

/-- No header indicator fires when no line starts with the comment marker. -/
theorem has_existing_header_false {L : List Str} {cs : Str} (hcs : cs ≠ [])
    (h : ∀ l ∈ L, strStartsWith (pyStrip l) cs = false) :
    has_existing_header L cs 0 = false := by
  rw [has_existing_header]
  split
  · rfl
  · rw [List.any_eq_false]
    intro i hi
    rw [Bool.not_eq_true, List.any_eq_false]
    intro ind hind
    rw [Bool.not_eq_true]
    have hcspre : ∀ X : Str, strStartsWith (pyStrip (L.getD i [])) (cs ++ X)
        = false := by
      intro X
      by_cases hil : i < L.length
      · cases hs : strStartsWith (pyStrip (L.getD i [])) (cs ++ X) with
        | false => rfl
        | true =>
          have hmem : L.getD i [] ∈ L := by
            rw [List.getD_eq_getElem L [] hil]
            exact L.get_mem i hil
          have hstart := startsWith_of_startsWith_append hs
          rw [h _ hmem] at hstart
          exact (Bool.false_ne_true hstart).elim
      · have hnil : L.getD i [] = [] := by
          rw [List.getD_eq_getElem?_getD, List.getElem?_eq_none (by omega)]
          rfl
        rw [hnil]
        obtain ⟨c0, cs', rfl⟩ := List.exists_cons_of_ne_nil hcs
        rfl
    simp only [headerIndicators, List.mem_cons] at hind
    rcases hind with h1 | h1 | h1 | h1 | h1 | h1 | h1 | h1
    · rw [h1]; exact hcspre _
    · rw [h1]; exact hcspre _
    · rw [h1]; exact hcspre _
    · rw [h1]; exact hcspre _
    · rw [h1]; exact hcspre _
    · rw [h1]; exact hcspre _
    · rw [h1]; exact hcspre _
    · cases h1

/-- A list whose first line carries `comment_start ++ " File:"` has an
existing header. -/
theorem has_existing_header_head {cs l0 : Str} {rest : List Str}
    (h : strStartsWith (pyStrip l0) (cs ++ s " File:") = true) :
    has_existing_header (l0 :: rest) cs 0 = true := by
  rw [has_existing_header]
  rw [if_neg (by simp)]
  rw [List.any_eq_true]
  refine ⟨0, ?_, ?_⟩
  · rw [List.mem_range']
    simp
  · rw [List.any_eq_true]
    refine ⟨cs ++ s " File:", ?_, ?_⟩
    · simp [headerIndicators]
    · simpa using h

/-- Exact shape of the assembled result for a non-empty body whose last line
is non-empty and newline-free. -/
theorem compose_exact {hb : Str} {L : List Str}
    (hr : rstripNL hb = hb)
    (hne : strip_leading_blank_lines L ≠ [])
    (hlast : ∃ lst, (strip_leading_blank_lines L).getLast? = some lst ∧
      lst ≠ [] ∧ '\n' ∉ lst) :
    compose_with_header_block hb L =
      (hb ++ '\n' :: '\n' :: joinNL (strip_leading_blank_lines L)) ++ nl := by
  simp only [compose_with_header_block, hr]
  rw [if_pos hne, if_neg ?hnonl]
  case hnonl =>
    obtain ⟨lst, hl1, hl2, hl3⟩ := hlast
    intro hends
    rw [strEndsWith_nl_iff] at hends
    have hsuf := joinNL_suffix_getLast _ _ hl1
    have hj := getLast?_of_suffix hsuf hl2
    have hlastj : (hb ++ '\n' :: '\n' :: joinNL (strip_leading_blank_lines L)).getLast?
        = (joinNL (strip_leading_blank_lines L)).getLast? := by
      rw [getLast?_append_right _ _ (by simp)]
      have hjne := strip_leading_joinNL_ne_nil L hne
      rw [show ('\n' :: '\n' :: joinNL (strip_leading_blank_lines L) : Str) =
        ['\n', '\n'] ++ joinNL (strip_leading_blank_lines L) from rfl]
      exact getLast?_append_right _ _ hjne
    rw [hlastj, hj] at hends
    have : '\n' ∈ lst := List.mem_of_getLast?_eq_some hends.symm.symm
    exact hl3 this

/-- Characters of a joined line list are newlines or characters of a line. -/
theorem mem_joinNL {c : Char} : ∀ {ls : List Str}, c ∈ joinNL ls →
    c = '\n' ∨ ∃ l ∈ ls, c ∈ l := by
  intro ls
  induction ls with
  | nil =>
    intro h
    cases h
  | cons x rest ih =>
    intro h
    cases rest with
    | nil => exact Or.inr ⟨x, List.mem_cons_self x [], h⟩
    | cons y rest' =>
      rw [show joinNL (x :: y :: rest') = x ++ '\n' :: joinNL (y :: rest')
        from rfl] at h
      rcases List.mem_append.mp h with h | h
      · exact Or.inr ⟨x, List.mem_cons_self x _, h⟩
      · rcases List.mem_cons.mp h with h | h
        · exact Or.inl h
        · rcases ih h with h | ⟨l, hl, hcl⟩
          · exact Or.inl h
          · exact Or.inr ⟨l, List.mem_cons_of_mem x hl, hcl⟩

/-- `splitlines` of the assembled two-block shape. -/
theorem splitlines_two_blocks {hb : Str} {body : List Str}
    (hbf : ∀ c ∈ hb, isLineBoundary c = false)
    (hbodyne : body ≠ [])
    (hbodybf : ∀ l ∈ body, ∀ c ∈ l, isLineBoundary c = false) :
    splitlines ((hb ++ '\n' :: '\n' :: joinNL body) ++ nl) =
      hb :: [] :: body := by
  have h1 : (hb ++ '\n' :: '\n' :: joinNL body) ++ nl =
      hb ++ '\n' :: ([] ++ '\n' :: (joinNL body ++ nl)) := by simp
  rw [h1, splitlines_append_bf _ _ hbf, splitlines_append_bf [] _ (by simp),
    splitlines_join_bf body hbodyne hbodybf]

/-- `readlines` of the assembled two-block shape. -/
theorem pyReadLines_two_blocks {hb : Str} {body : List Str}
    (hbf : ∀ c ∈ hb, isLineBoundary c = false)
    (hbodyne : body ≠ [])
    (hbodybf : ∀ l ∈ body, ∀ c ∈ l, isLineBoundary c = false) :
    pyReadLines ((hb ++ '\n' :: '\n' :: joinNL body) ++ nl) =
      hb :: [] :: body := by
  have hrb : isLineBoundary '\r' = true := by decide
  have hnb : isLineBoundary '\n' = true := by decide
  have hnr : '\r' ∉ (hb ++ '\n' :: '\n' :: joinNL body) ++ nl := by
    intro hm
    rcases List.mem_append.mp hm with hm | hm
    · rcases List.mem_append.mp hm with hm | hm
      · rw [hbf '\r' hm] at hrb
        cases hrb
      · rcases List.mem_cons.mp hm with hm | hm
        · cases hm
        · rcases List.mem_cons.mp hm with hm | hm
          · cases hm
          · rcases mem_joinNL hm with hm | ⟨l, hl, hcl⟩
            · cases hm
            · rw [hbodybf l hl '\r' hcl] at hrb
              cases hrb
    · rcases List.mem_cons.mp hm with hm | hm
      · cases hm
      · cases hm
  have hbnl : '\n' ∉ hb := by
    intro hm
    rw [hbf '\n' hm] at hnb
    cases hnb
  simp only [pyReadLines]
  rw [translateNL_id hnr]
  have hgl : List.getLast? ((hb ++ '\n' :: '\n' :: joinNL body) ++ nl) =
      some '\n' := List.getLast?_concat _
  rw [if_neg (by simp), if_pos hgl]
  have hallnl : ∀ l ∈ body ++ [([] : Str)], '\n' ∉ l := by
    intro l hl
    rcases List.mem_append.mp hl with hl | hl
    · intro hm
      rw [hbodybf l hl '\n' hm] at hnb
      cases hnb
    · rcases List.mem_cons.mp hl with hl | hl
      · rw [hl]
        simp
      · cases hl
  have h1 : (hb ++ '\n' :: '\n' :: joinNL body) ++ nl =
      hb ++ '\n' :: ([] ++ '\n' :: joinNL (body ++ [[]])) := by
    rw [joinNL_concat [] body hbodyne]
    simp [nl]
  rw [h1, splitOnNL_append _ _ hbnl, splitOnNL_append [] _ (by simp),
    splitOnNL_joinNL (body ++ [[]]) (by simp) hallnl]
  rw [show hb :: ([] : Str) :: (body ++ [[]]) =
    (hb :: ([] : Str) :: body) ++ [([] : Str)] from by simp]
  exact List.dropLast_concat

/-- `toLower` distributes over append. -/
theorem toLower_append (a b : Str) :
    toLower (a ++ b) = toLower a ++ toLower b :=
  List.map_append _ a b

/-- `toLower` preserves length. -/
theorem toLower_length (a : Str) : (toLower a).length = a.length :=
  List.length_map a _

/-- `rstrip("\n")` is the identity on newline-free text. -/
theorem rstripNL_id {t : Str} (h : '\n' ∉ t) : rstripNL t = t := by
  rw [rstripNL]
  cases ht : t.reverse with
  | nil =>
    rw [List.reverse_eq_nil_iff] at ht
    rw [ht]
    rfl
  | cons c cr =>
    have hc : c ≠ '\n' := by
      intro he
      refine h ?_
      rw [← List.mem_reverse, ht, he]
      exact List.mem_cons_self _ _
    rw [List.dropWhile_cons, if_neg (by simpa using hc), ← ht,
      List.reverse_reverse]

/-- The standard header line regrouped around its `" File: "` core. -/
theorem standardHeaderLine_decomp (cs ce p : Str) :
    standardHeaderLine cs ce p =
      (cs ++ s " File: ") ++ (p ++ (if ce ≠ [] then ' ' :: ce else [])) := by
  rw [standardHeaderLine]
  simp

/-- The standard header line is its own strip. -/
theorem standardHeaderLine_strip {cs ce p : Str} (hcs : cs ≠ [])
    (hcs_hd : isPySpace (cs.headD 'x') = false)
    (hce_lst : ce ≠ [] → isPySpace (ce.getLastD 'x') = false)
    (hp_strip : pyStrip p = p) (hp_ne : p ≠ []) :
    pyStrip (standardHeaderLine cs ce p) = standardHeaderLine cs ce p := by
  rw [standardHeaderLine_decomp]
  refine pyStrip_eq_self_of ?_ ?_
  · intro c hc
    obtain ⟨a, cs', rfl⟩ := List.exists_cons_of_ne_nil hcs
    rw [List.cons_append, List.cons_append, List.head?_cons,
      Option.some.injEq] at hc
    rw [← hc]
    simpa using hcs_hd
  · intro c hc
    by_cases hce : ce = []
    · subst hce
      rw [if_neg (by simp), List.append_nil,
        getLast?_append_right _ _ hp_ne] at hc
      exact stripped_last hp_strip c hc
    · rw [if_pos hce, getLast?_append_right _ _ (by simp),
        getLast?_append_right p _ (by simp)] at hc
      have hsp : (' ' :: ce : Str).getLast? = ce.getLast? :=
        getLast?_append_right [' '] ce hce
      rw [hsp] at hc
      exact last_nonspace_of_getLastD (hce_lst hce) c hc

/-- The standard header line is free of line boundaries. -/
theorem standardHeaderLine_bf {cs ce p : Str}
    (hcs_bf : ∀ c ∈ cs, isLineBoundary c = false)
    (hce_bf : ∀ c ∈ ce, isLineBoundary c = false)
    (hp_bf : ∀ c ∈ p, isLineBoundary c = false) :
    ∀ c ∈ standardHeaderLine cs ce p, isLineBoundary c = false := by
  intro c hc
  rw [standardHeaderLine_decomp] at hc
  rcases List.mem_append.mp hc with h | h
  · rcases List.mem_append.mp h with h | h
    · exact hcs_bf c h
    · fin_cases h <;> decide
  · rcases List.mem_append.mp h with h | h
    · exact hp_bf c h
    · by_cases hce : ce = []
      · subst hce
        rw [if_neg (by simp)] at h
        cases h
      · rw [if_pos hce] at h
        rcases List.mem_cons.mp h with h | h
        · rw [h]
          decide
        · exact hce_bf c h

/-- The stripped text after the comment marker in the standard header line. -/
theorem standardHeaderLine_text {cs ce p : Str}
    (hce_lst : ce ≠ [] → isPySpace (ce.getLastD 'x') = false)
    (hp_strip : pyStrip p = p) (hp_ne : p ≠ []) :
    pyStrip ((standardHeaderLine cs ce p).drop cs.length) =
      s "File: " ++ (p ++ (if ce ≠ [] then ' ' :: ce else [])) := by
  have hdrop : (standardHeaderLine cs ce p).drop cs.length =
      s " File: " ++ (p ++ (if ce ≠ [] then ' ' :: ce else [])) := by
    rw [standardHeaderLine_decomp, List.append_assoc]
    exact List.drop_left cs _
  rw [hdrop,
    show (s " File: " : Str) ++ (p ++ (if ce ≠ [] then ' ' :: ce else [])) =
      ' ' :: (s "File: " ++ (p ++ (if ce ≠ [] then ' ' :: ce else [])))
      from rfl,
    pyStrip_cons_space]
  refine pyStrip_eq_self_of ?_ ?_
  · intro c hc
    rw [show ((s "File: " : Str) ++
        (p ++ (if ce ≠ [] then ' ' :: ce else []))).head? = some 'F'
      from rfl, Option.some.injEq] at hc
    rw [← hc]
    decide
  · intro c hc
    by_cases hce : ce = []
    · subst hce
      rw [if_neg (by simp), List.append_nil,
        getLast?_append_right _ _ hp_ne] at hc
      exact stripped_last hp_strip c hc
    · rw [if_pos hce, getLast?_append_right _ _ (by simp)] at hc
      rw [getLast?_append_right p _ (by simp)] at hc
      have hsp : (' ' :: ce : Str).getLast? = ce.getLast? :=
        getLast?_append_right [' '] ce hce
      rw [hsp] at hc
      exact last_nonspace_of_getLastD (hce_lst hce) c hc

/-- The standard header line starts with its indicator. -/
theorem standardHeaderLine_indicator (cs ce p : Str) :
    strStartsWith (standardHeaderLine cs ce p) (cs ++ s " File:") = true := by
  rw [strStartsWith, standardHeaderLine_decomp]
  refine List.isPrefixOf_iff_prefix.mpr
    ⟨[' '] ++ (p ++ (if ce ≠ [] then ' ' :: ce else [])), ?_⟩
  rw [show (s " File: " : Str) = s " File:" ++ [' '] from by decide]
  simp

/-- A marker no longer than `cs ++ " File: "` prefixes the standard header
line only if it prefixes `cs ++ " File: "`. -/
theorem standardHeaderLine_marker_prefix {cs ce p mk : Str}
    (hlen : mk.length ≤ (cs ++ s " File: ").length)
    (h : strStartsWith (standardHeaderLine cs ce p) mk = true) :
    mk.isPrefixOf (cs ++ s " File: ") = true := by
  rw [strStartsWith, standardHeaderLine_decomp] at h
  exact prefix_append_short h hlen


/-- `findSome?` over a list with no hits. -/
theorem findSome?_none {α β : Type} {f : α → Option β} {l : List α}
    (h : ∀ x ∈ l, f x = none) : l.findSome? f = none := by
  induction l with
  | nil => rfl
  | cons x xs ih =>
    rw [List.findSome?_cons, h x (List.mem_cons_self x xs)]
    exact ih fun y hy => h y (List.mem_cons_of_mem x hy)

/-- A line that does not start with the marker is rejected by the detector. -/
theorem detectTryLine_none {start endM line : Str}
    (h : strStartsWith line start = false) :
    detectTryLine start endM line = none := by
  rw [detectTryLine, if_neg]
  rintro ⟨h1, h2⟩
  rw [h] at h1
  cases h1

/-- The detector recognises the standard header line and extracts the
`File:` pattern. -/
theorem detectTryLine_header {cs ce p : Str}
    (hce_lst : ce ≠ [] → isPySpace (ce.getLastD 'x') = false)
    (hp_strip : pyStrip p = p) (hp_ne : p ≠ []) :
    detectTryLine cs ce (standardHeaderLine cs ce p) =
      some (cs, ce, s "File:") := by
  have hstart : strStartsWith (standardHeaderLine cs ce p) cs = true :=
    startsWith_of_startsWith_append (standardHeaderLine_indicator cs ce p)
  have hlow : toLower (standardHeaderLine cs ce p) =
      (toLower cs ++ [' ']) ++ s "file" ++
        (s ": " ++ toLower (p ++ (if ce ≠ [] then ' ' :: ce else []))) := by
    rw [standardHeaderLine_decomp, toLower_append, toLower_append,
      show toLower (s " File: ") = s " file: " from by decide,
      show (s " file: " : Str) = [' '] ++ s "file" ++ s ": " from by decide]
    simp
  have hcont : containsStr (toLower (standardHeaderLine cs ce p))
      (s "file") = true :=
    containsStr_of_occursAtP
      ⟨toLower cs ++ [' '],
        s ": " ++ toLower (p ++ (if ce ≠ [] then ' ' :: ce else [])),
        hlow, rfl⟩
  have hany : (detectOuterKeywords.any fun kw =>
      containsStr (toLower (standardHeaderLine cs ce p)) kw) = true := by
    rw [List.any_eq_true]
    exact ⟨s "file", by simp [detectOuterKeywords], hcont⟩
  simp only [detectTryLine]
  rw [if_pos ⟨hstart, hany⟩]
  rw [standardHeaderLine_text hce_lst hp_strip hp_ne]
  have hlowT : toLower ((s "File: " : Str) ++
      (p ++ (if ce ≠ [] then ' ' :: ce else []))) =
      (s "file:" ++ [' ']) ++
        toLower (p ++ (if ce ≠ [] then ' ' :: ce else [])) := by
    rw [toLower_append, show toLower (s "File: ") = s "file:" ++ [' ']
      from by decide]
  have hfind : strFindIdx (toLower ((s "File: " : Str) ++
      (p ++ (if ce ≠ [] then ' ' :: ce else [])))) (s "file:") = some 0 := by
    rw [strFindIdx.eq_def, if_pos]
    rw [hlowT]
    refine List.isPrefixOf_iff_prefix.mpr
      ⟨[' '] ++ toLower (p ++ (if ce ≠ [] then ' ' :: ce else [])), ?_⟩
    simp
  have htake : ((s "File: " : Str) ++
      (p ++ (if ce ≠ [] then ' ' :: ce else []))).take
        (0 + (s "file:").length) = s "File:" := by
    rw [show 0 + (s "file:" : Str).length = 5 from by decide,
      List.take_append_of_le_length (by decide : 5 ≤ (s "File: " : Str).length)]
    decide
  rw [show (detectInnerKeywords : List Str) = s "file:" :: [s "source:",
    s "path:", s "filename:", s "@file"] from rfl]
  rw [List.findSome?_cons, hfind]
  simp only [Option.map_some']
  rw [htake]

/-- The standard header line is recognised as a file-path line. -/
theorem isFilePathLine_header {cs ce p : Str} (hcs_len : cs.length + 1 < 15) :
    isFilePathLine (standardHeaderLine cs ce p) = true := by
  have hlow : toLower (standardHeaderLine cs ce p) =
      (toLower cs ++ [' ']) ++ s "file:" ++
        ([' '] ++ toLower (p ++ (if ce ≠ [] then ' ' :: ce else []))) := by
    rw [standardHeaderLine_decomp, toLower_append, toLower_append,
      show toLower (s " File: ") = s " file: " from by decide,
      show (s " file: " : Str) = [' '] ++ s "file:" ++ [' '] from by decide]
    simp
  have hocc : occursAtP (s "file:") (toLower (standardHeaderLine cs ce p))
      (toLower cs ++ [' ']).length :=
    ⟨toLower cs ++ [' '],
      [' '] ++ toLower (p ++ (if ce ≠ [] then ' ' :: ce else [])), hlow, rfl⟩
  obtain ⟨j, hj, hle⟩ := strFindIdx_le_of_occ hocc
  have hlen : (toLower cs ++ [' ']).length = cs.length + 1 := by
    rw [List.length_append, toLower_length]
    simp
  rw [isFilePathLine, List.any_eq_true]
  refine ⟨s "file:", by simp [mergePathKeywords], ?_⟩
  rw [hj]
  dsimp only
  rw [decide_eq_true_eq]
  omega

/-- Merging the standard header line with its own `File:` content is the
identity: the line is recognised as a path line and replaced by the freshly
composed standard line for the same path. -/
theorem merge_on_header {cs ce p : Str}
    (hcs : cs ≠ []) (hcs_hd : isPySpace (cs.headD 'x') = false)
    (hce_lst : ce ≠ [] → isPySpace (ce.getLastD 'x') = false)
    (hcs_bf : ∀ c ∈ cs, isLineBoundary c = false)
    (hce_bf : ∀ c ∈ ce, isLineBoundary c = false)
    (hp_bf : ∀ c ∈ p, isLineBoundary c = false)
    (hp_strip : pyStrip p = p) (hp_ne : p ≠ [])
    (hp_ce : ce ≠ [] → containsStr p ce = false)
    (hp_F : containsStr p (s "File:") = false)
    (hcs_len : cs.length + 1 < 15) :
    merge_headers (standardHeaderLine cs ce p) (s "File: " ++ p) cs ce =
      standardHeaderLine cs ce p := by
  have hstrip := standardHeaderLine_strip hcs hcs_hd hce_lst hp_strip hp_ne
  have hbf := standardHeaderLine_bf hcs_bf hce_bf hp_bf
  have hnl : '\n' ∉ standardHeaderLine cs ce p := by
    intro hm
    have h1 := hbf '\n' hm
    have h2 : isLineBoundary '\n' = true := by decide
    rw [h1] at h2
    cases h2
  simp only [merge_headers]
  rw [mergeFilePath_file hp_strip hp_ce hp_F, hstrip, splitOnNL_nl_free _ hnl]
  have hml : mergeMetaLine cs ce (standardHeaderLine cs ce p) = none := by
    simp only [mergeMetaLine]
    rw [hstrip, if_neg ?hne, if_pos (isFilePathLine_header hcs_len)]
    case hne =>
      rw [standardHeaderLine_decomp]
      simp [hcs]
  rw [List.filterMap_cons, hml]
  rw [if_neg (by simp)]

/-- The capture loop keeps a non-blank comment line. -/
theorem captureHeaderAux_keep {cs l : Str} {rest : List Str}
    (h1 : pyStrip l ≠ []) (h2 : strStartsWith (pyStrip l) cs = true) :
    captureHeaderAux cs (l :: rest) = l :: captureHeaderAux cs rest := by
  simp only [captureHeaderAux]
  rw [if_pos ⟨h1, h2⟩]

/-- The capture loop skips a blank line. -/
theorem captureHeaderAux_blank {cs l : Str} {rest : List Str}
    (h : pyStrip l = []) :
    captureHeaderAux cs (l :: rest) = captureHeaderAux cs rest := by
  simp only [captureHeaderAux]
  rw [if_neg (by simp [h]), if_pos h]

/-- The capture loop stops at a non-blank non-comment line. -/
theorem captureHeaderAux_stop {cs l : Str} {rest : List Str}
    (h1 : pyStrip l ≠ []) (h2 : strStartsWith (pyStrip l) cs = false) :
    captureHeaderAux cs (l :: rest) = [] := by
  simp only [captureHeaderAux]
  rw [if_neg (by simp [h2]), if_neg h1]

/-- Removing the existing header from the two-block shape drops the header
line and the blank separator. -/
theorem remove_existing_two_blocks {cs hb b0 : Str} {body' : List Str}
    (hhe : has_existing_header (hb :: [] :: b0 :: body') cs 0 = true)
    (h4 : pyStrip b0 ≠ []) (h5 : strStartsWith (pyStrip b0) cs = false) :
    remove_existing_header (hb :: [] :: b0 :: body') cs 0 = b0 :: body' := by
  rw [remove_existing_header, if_pos hhe]
  have hc : ∃ c, min (hb :: [] :: b0 :: body').length (0 + 10) - (0 + 1) =
      c + 2 := by
    refine ⟨min (hb :: [] :: b0 :: body').length (0 + 10) - 3, ?_⟩
    simp
    omega
  obtain ⟨c, hceq⟩ := hc
  rw [hceq]
  have hstep1 : headerEndAux (hb :: [] :: b0 :: body') cs (c + 2) (0 + 1) 0 =
      headerEndAux (hb :: [] :: b0 :: body') cs (c + 1) (0 + 1 + 1) (0 + 1) := by
    rw [headerEndAux]
    rw [if_pos]
    exact Or.inl rfl
  have hstep2 : headerEndAux (hb :: [] :: b0 :: body') cs (c + 1)
      (0 + 1 + 1) (0 + 1) = 0 + 1 := by
    rw [headerEndAux]
    rw [if_neg]
    rintro (h | h)
    · exact h4 h
    · have h' : strStartsWith (pyStrip b0) cs = true := h
      rw [h5] at h'
      cases h'
  rw [hstep1, hstep2]
  rfl

/-- `_determine_new_content` on marker-free non-empty content: the plain
compose branch is taken. -/
theorem determine_plain {sfx content cs ce hb : Str}
    (hcs : cs ≠ [])
    (hlines_ne : splitlines content ≠ [])
    (hhead_raw : strStartsWith ((splitlines content).headD []) (s "#!") = false)
    (hxml : is_special_xml_file sfx = false)
    (hweb : ¬(sfx = s ".vue" ∨ sfx = s ".svelte" ∨ sfx = s ".astro"))
    (hmk : ∀ l ∈ splitlines content, strStartsWith (pyStrip l) cs = false)
    (hcne : pyStrip content ≠ []) :
    determine_new_content sfx content cs ce hb =
      some (compose_with_header_block hb (splitlines content)) := by
  simp only [determine_new_content]
  rw [if_neg hlines_ne, if_neg ?hsb, if_neg (by simp [hxml]),
    if_neg hweb, if_neg ?hhe, if_neg ?hmd, if_pos hcne]
  case hsb =>
    rw [hhead_raw]
    simp
  case hhe =>
    rw [has_existing_header_false hcs hmk]
    simp
  case hmd =>
    rw [collect_metadata_lines,
      collectMetaAux_nil_of_no_marker
        fun l hl => hmk l (List.mem_of_mem_take hl)]
    simp

/-- The pattern detector on the assembled two-block content returns the
dialect of the header line together with the `File:` pattern. -/
theorem detect_two_blocks {cs ce p : Str} {body : List Str}
    (hdial : (cs, ce) ∈ detectorMarkers)
    (hcs : cs ≠ []) (hcs_hd : isPySpace (cs.headD 'x') = false)
    (hce_lst : ce ≠ [] → isPySpace (ce.getLastD 'x') = false)
    (hcs_bf : ∀ c ∈ cs, isLineBoundary c = false)
    (hce_bf : ∀ c ∈ ce, isLineBoundary c = false)
    (hp_bf : ∀ c ∈ p, isLineBoundary c = false)
    (hp_strip : pyStrip p = p) (hp_ne : p ≠ [])
    (hmarker : ∀ m ∈ detectorMarkers, m ≠ (cs, ce) →
      strStartsWith (standardHeaderLine cs ce p) m.1 = false)
    (hbodyne : body ≠ [])
    (hbodybf : ∀ l ∈ body, ∀ c ∈ l, isLineBoundary c = false)
    (hbodymk : ∀ l ∈ body, ∀ m ∈ detectorMarkers,
      strStartsWith (pyStrip l) m.1 = false) :
    detect_header_pattern
      ((standardHeaderLine cs ce p ++ '\n' :: '\n' :: joinNL body) ++ nl) =
      some (cs, ce, s "File:") := by
  have hbf := standardHeaderLine_bf hcs_bf hce_bf hp_bf
  have hstrip := standardHeaderLine_strip hcs hcs_hd hce_lst hp_strip hp_ne
  have hbne : standardHeaderLine cs ce p ≠ [] := by
    rw [standardHeaderLine_decomp]
    simp [hcs]
  simp only [detect_header_pattern]
  rw [pyReadLines_two_blocks hbf hbodyne hbodybf]
  rw [show ((standardHeaderLine cs ce p :: ([] : Str) :: body).take 10) =
    standardHeaderLine cs ce p :: ([] : Str) :: body.take 8 from rfl]
  rw [List.map_cons, List.map_cons, hstrip,
    show pyStrip ([] : Str) = [] from rfl]
  rw [if_neg (by simp)]
  refine findSome?_unique hdial ?_ ?_
  · show List.findSome?
      (fun line => if line = [] then none else detectTryLine cs ce line)
      (standardHeaderLine cs ce p :: ([] : Str) ::
        (body.take 8).map pyStrip) = some (cs, ce, s "File:")
    rw [List.findSome?_cons, if_neg hbne,
      detectTryLine_header hce_lst hp_strip hp_ne]
  · intro m hm hne
    apply findSome?_none
    intro line hline
    rcases List.mem_cons.mp hline with h | h
    · rw [h, if_neg hbne]
      exact detectTryLine_none (hmarker m hm hne)
    · rcases List.mem_cons.mp h with h | h
      · rw [h, if_pos rfl]
      · obtain ⟨l, hl, rfl⟩ := List.mem_map.mp h
        have hlb : l ∈ body := List.mem_of_mem_take hl
        by_cases hemp : pyStrip l = []
        · rw [hemp, if_pos rfl]
        · rw [if_neg hemp]
          exact detectTryLine_none (hbodymk l hlb m hm)

/-- `_determine_new_content` applied to an already-assembled file is the
identity: the header line is detected, captured, merged back to itself, the
header and separator are removed, and the assembler reproduces the input. -/
theorem determine_second_pass {sfx cs ce p : Str} {body : List Str}
    (hdial : (cs, ce) ∈ detectorMarkers)
    (hcs : cs ≠ []) (hcs_hd : isPySpace (cs.headD 'x') = false)
    (hce_lst : ce ≠ [] → isPySpace (ce.getLastD 'x') = false)
    (hcs_bf : ∀ c ∈ cs, isLineBoundary c = false)
    (hce_bf : ∀ c ∈ ce, isLineBoundary c = false)
    (hp_bf : ∀ c ∈ p, isLineBoundary c = false)
    (hp_strip : pyStrip p = p) (hp_ne : p ≠ [])
    (hp_ce : ce ≠ [] → containsStr p ce = false)
    (hp_F : containsStr p (s "File:") = false)
    (hcs_len : cs.length + 1 < 15)
    (hsb : (s "#!").isPrefixOf (cs ++ s " File: ") = false)
    (hsb_len : (s "#!" : Str).length ≤ (cs ++ s " File: ").length)
    (hmarker : ∀ m ∈ detectorMarkers, m ≠ (cs, ce) →
      strStartsWith (standardHeaderLine cs ce p) m.1 = false)
    (hxml : is_special_xml_file sfx = false)
    (hweb : ¬(sfx = s ".vue" ∨ sfx = s ".svelte" ∨ sfx = s ".astro"))
    (hbodyne : body ≠ [])
    (hb0 : pyStrip (body.headD []) ≠ [])
    (hlast : pyStrip (body.getLastD []) ≠ [])
    (hbodybf : ∀ l ∈ body, ∀ c ∈ l, isLineBoundary c = false)
    (hbodymk : ∀ l ∈ body, ∀ m ∈ detectorMarkers,
      strStartsWith (pyStrip l) m.1 = false) :
    determine_new_content sfx
      ((standardHeaderLine cs ce p ++ '\n' :: '\n' :: joinNL body) ++ nl)
      cs ce (standardHeaderLine cs ce p) =
      some ((standardHeaderLine cs ce p ++ '\n' :: '\n' :: joinNL body)
        ++ nl) := by
  have hbf := standardHeaderLine_bf hcs_bf hce_bf hp_bf
  have hstrip := standardHeaderLine_strip hcs hcs_hd hce_lst hp_strip hp_ne
  have hbne : standardHeaderLine cs ce p ≠ [] := by
    rw [standardHeaderLine_decomp]
    simp [hcs]
  have hnl2 : '\n' ∉ standardHeaderLine cs ce p := by
    intro hm
    have h1 := hbf '\n' hm
    have h2 : isLineBoundary '\n' = true := by decide
    rw [h1] at h2
    cases h2
  obtain ⟨b0, body', rfl⟩ := List.exists_cons_of_ne_nil hbodyne
  have hb0' : pyStrip b0 ≠ [] := hb0
  have hdet := detect_two_blocks hdial hcs hcs_hd hce_lst hcs_bf hce_bf hp_bf
    hp_strip hp_ne hmarker hbodyne hbodybf hbodymk
  have hsplitC := splitlines_two_blocks hbf hbodyne hbodybf
  have hcap : captureHeaderAux cs
      ((standardHeaderLine cs ce p :: ([] : Str) :: b0 :: body').take 10) =
      [standardHeaderLine cs ce p] := by
    rw [show ((standardHeaderLine cs ce p :: ([] : Str) :: b0 :: body').take
        10) = standardHeaderLine cs ce p :: ([] : Str) :: b0 :: body'.take 7
      from rfl]
    rw [captureHeaderAux_keep (by rw [hstrip]; exact hbne)
      (by rw [hstrip]
          exact startsWith_of_startsWith_append
            (standardHeaderLine_indicator cs ce p))]
    rw [captureHeaderAux_blank (show pyStrip ([] : Str) = [] from rfl)]
    rw [captureHeaderAux_stop hb0'
      (hbodymk b0 (List.mem_cons_self b0 body') (cs, ce) hdial)]
  have hhe : has_existing_header
      (standardHeaderLine cs ce p :: ([] : Str) :: b0 :: body') cs 0 = true :=
    has_existing_header_head
      (by rw [hstrip]; exact standardHeaderLine_indicator cs ce p)
  have hsbF : strStartsWith (standardHeaderLine cs ce p) (s "#!") = false := by
    cases hss : strStartsWith (standardHeaderLine cs ce p) (s "#!") with
    | false => rfl
    | true =>
      have := standardHeaderLine_marker_prefix hsb_len hss
      rw [hsb] at this
      cases this
  have hcontent : pyStrip (standardHeaderLine cs ce p) =
      standardHeaderLine cs ce p := hstrip
  have hsplitHB : splitOnNL (standardHeaderLine cs ce p) =
      [standardHeaderLine cs ce p] := splitOnNL_nl_free _ hnl2
  have hremove : remove_existing_header
      (standardHeaderLine cs ce p :: ([] : Str) :: b0 :: body') cs 0 =
      b0 :: body' :=
    remove_existing_two_blocks hhe hb0'
      (hbodymk b0 (List.mem_cons_self b0 body') (cs, ce) hdial)
  have hhc : (if strStartsWith (standardHeaderLine cs ce p) cs = true then
      let hc := pyStrip ((standardHeaderLine cs ce p).drop cs.length)
      if ce ≠ [] ∧ strEndsWith hc ce = true then
        pyStrip (hc.take (hc.length - ce.length))
      else hc
    else standardHeaderLine cs ce p) = s "File: " ++ p := by
    rw [if_pos (startsWith_of_startsWith_append
      (standardHeaderLine_indicator cs ce p))]
    simp only [standardHeaderLine_text hce_lst hp_strip hp_ne]
    by_cases hce : ce = []
    · subst hce
      rw [if_neg (by rintro ⟨h, h2⟩; exact h rfl)]
      rw [if_neg (by simp), List.append_nil]
    · have hshape : (s "File: " : Str) ++ (p ++ (if ce ≠ [] then ' ' :: ce
        else [])) = ((s "File: " ++ p) ++ [' ']) ++ ce := by
        rw [if_pos hce]
        simp
      have hends : strEndsWith ((s "File: " : Str) ++
          (p ++ (if ce ≠ [] then ' ' :: ce else []))) ce = true := by
        rw [strEndsWith, hshape]
        exact List.isSuffixOf_iff_suffix.mpr ⟨(s "File: " ++ p) ++ [' '], rfl⟩
      rw [if_pos ⟨hce, hends⟩, hshape]
      have hlen : (((s "File: " ++ p) ++ [' ']) ++ ce).length - ce.length =
          ((s "File: " ++ p) ++ [' ']).length := by
        simp
        omega
      rw [hlen, List.take_left]
      refine pyStrip_append_space (pyStrip_eq_self_of ?_ ?_)
      · intro c hc
        rw [show ((s "File: " : Str) ++ p).head? = some 'F' from rfl,
          Option.some.injEq] at hc
        rw [← hc]
        decide
      · intro c hc
        rw [getLast?_append_right _ _ hp_ne] at hc
        exact stripped_last hp_strip c hc
  have hmerge := merge_on_header hcs hcs_hd hce_lst hcs_bf hce_bf hp_bf
    hp_strip hp_ne hp_ce hp_F hcs_len
  have hstripLead : strip_leading_blank_lines (b0 :: body') = b0 :: body' := by
    rw [strip_leading_blank_lines, List.dropWhile_cons,
      if_neg (by simpa using hb0')]
  have hglast : (b0 :: body').getLast? = some ((b0 :: body').getLastD []) := by
    cases hgo : (b0 :: body').getLast? with
    | none => exact absurd (List.getLast?_eq_none_iff.mp hgo) hbodyne
    | some x =>
      rw [List.getLastD_eq_getLast?, hgo]
      rfl
  have hlastmem : (b0 :: body').getLastD [] ∈ b0 :: body' :=
    List.mem_of_getLast?_eq_some hglast
  have hlast_ne : (b0 :: body').getLastD [] ≠ [] := by
    intro he
    rw [he] at hlast
    exact hlast rfl
  have hcompose : compose_with_header_block (standardHeaderLine cs ce p)
      (b0 :: body') =
      (standardHeaderLine cs ce p ++ '\n' :: '\n' :: joinNL (b0 :: body'))
        ++ nl := by
    have hce := compose_exact (rstripNL_id hnl2)
      (by rw [hstripLead]; exact List.cons_ne_nil b0 body')
      ⟨(b0 :: body').getLastD [], by rw [hstripLead]; exact hglast, hlast_ne,
        by
          intro hm
          have h1 := hbodybf _ hlastmem '\n' hm
          have h2 : isLineBoundary '\n' = true := by decide
          rw [h1] at h2
          cases h2⟩
    rw [hce, hstripLead]
  simp only [determine_new_content]
  rw [hsplitC]
  rw [if_neg (by simp), if_neg ?hsb2, if_neg (by simp [hxml]), if_neg hweb,
    if_pos hhe, hdet]
  case hsb2 =>
    show ¬ strStartsWith ((standardHeaderLine cs ce p :: ([] : Str) ::
      b0 :: body').headD []) (s "#!") = true
    rw [show ((standardHeaderLine cs ce p :: ([] : Str) :: b0 ::
      body').headD []) = standardHeaderLine cs ce p from rfl, hsbF]
    simp
  dsimp only
  rw [hcap]
  rw [show joinNL [standardHeaderLine cs ce p] = standardHeaderLine cs ce p
    from rfl]
  rw [hsplitHB]
  rw [if_neg (by simp)]
  rw [show ([standardHeaderLine cs ce p].headD []) =
    standardHeaderLine cs ce p from rfl]
  rw [hhc, hmerge, hremove, hcompose]

/-- Last element of a suffix-extension. -/
theorem getLast?_of_suffix_any {α : Type} {l1 l2 : List α} (h : l1 <:+ l2)
    (hne : l1 ≠ []) : l2.getLast? = l1.getLast? := by
  obtain ⟨u, rfl⟩ := h
  exact getLast?_append_right u l1 hne

/-- C1 (amended): for every detector dialect, clean path text, and content
none of whose lines begins (after stripping) with any comment marker, with a
non-blank last line and no shebang, `_determine_new_content` produces the
assembled file, and a second application to that result reproduces it exactly
(idempotence). Without the marker-freedom assumption the claim fails
(`c1_counterexample`): a leading ordinary comment is absorbed into the header
on the second pass. -/
theorem c1_idempotent {cs ce p sfx content : Str}
    (hdial : (cs, ce) ∈ detectorMarkers)
    (hp_strip : pyStrip p = p) (hp_ne : p ≠ [])
    (hp_bf : ∀ c ∈ p, isLineBoundary c = false)
    (hp_ce : ce ≠ [] → containsStr p ce = false)
    (hp_F : containsStr p (s "File:") = false)
    (hxml : is_special_xml_file sfx = false)
    (hweb : ¬(sfx = s ".vue" ∨ sfx = s ".svelte" ∨ sfx = s ".astro"))
    (hlines_ne : splitlines content ≠ [])
    (hhead_raw : strStartsWith ((splitlines content).headD []) (s "#!")
      = false)
    (hmk : ∀ l ∈ splitlines content, ∀ m ∈ detectorMarkers,
      strStartsWith (pyStrip l) m.1 = false)
    (hlast : pyStrip ((splitlines content).getLastD []) ≠ [])
    (hcne : pyStrip content ≠ []) :
    determine_new_content sfx content cs ce (standardHeaderLine cs ce p) =
      some (compose_with_header_block (standardHeaderLine cs ce p)
        (splitlines content)) ∧
    determine_new_content sfx
      (compose_with_header_block (standardHeaderLine cs ce p)
        (splitlines content)) cs ce (standardHeaderLine cs ce p) =
      some (compose_with_header_block (standardHeaderLine cs ce p)
        (splitlines content)) := by
  have hfacts : ∀ d ∈ detectorMarkers,
      d.1 ≠ [] ∧ isPySpace (d.1.headD 'x') = false ∧
      (d.2 ≠ [] → isPySpace (d.2.getLastD 'x') = false) ∧
      (∀ c ∈ d.1, isLineBoundary c = false) ∧
      (∀ c ∈ d.2, isLineBoundary c = false) ∧
      d.1.length + 1 < 15 ∧
      (s "#!").isPrefixOf (d.1 ++ s " File: ") = false ∧
      (s "#!" : Str).length ≤ (d.1 ++ s " File: ").length ∧
      (∀ m ∈ detectorMarkers, m ≠ d →
        m.1.isPrefixOf (d.1 ++ s " File: ") = false ∧
          m.1.length ≤ (d.1 ++ s " File: ").length) := by decide
  obtain ⟨hf1, hf2, hf3, hf4, hf5, hf6, hf7, hf8, hf9⟩ :=
    hfacts (cs, ce) hdial
  have hcs : cs ≠ [] := hf1
  have hcs_hd : isPySpace (cs.headD 'x') = false := hf2
  have hce_lst : ce ≠ [] → isPySpace (ce.getLastD 'x') = false := hf3
  have hcs_bf : ∀ c ∈ cs, isLineBoundary c = false := hf4
  have hce_bf : ∀ c ∈ ce, isLineBoundary c = false := hf5
  have hcs_len : cs.length + 1 < 15 := hf6
  have hsb : (s "#!").isPrefixOf (cs ++ s " File: ") = false := hf7
  have hsb_len : (s "#!" : Str).length ≤ (cs ++ s " File: ").length := hf8
  have hmarker : ∀ m ∈ detectorMarkers, m ≠ (cs, ce) →
      strStartsWith (standardHeaderLine cs ce p) m.1 = false := by
    intro m hm hne
    obtain ⟨hpref, hlen⟩ := hf9 m hm hne
    cases hss : strStartsWith (standardHeaderLine cs ce p) m.1 with
    | false => rfl
    | true =>
      have := standardHeaderLine_marker_prefix hlen hss
      rw [hpref] at this
      cases this
  have hbf := standardHeaderLine_bf hcs_bf hce_bf hp_bf
  have hnl2 : '\n' ∉ standardHeaderLine cs ce p := by
    intro hm
    have h1 := hbf '\n' hm
    have h2 : isLineBoundary '\n' = true := by decide
    rw [h1] at h2
    cases h2
  have hglast : (splitlines content).getLast? =
      some ((splitlines content).getLastD []) := by
    cases hgo : (splitlines content).getLast? with
    | none => exact absurd (List.getLast?_eq_none_iff.mp hgo) hlines_ne
    | some x =>
      rw [List.getLastD_eq_getLast?, hgo]
      rfl
  have hlastmem : (splitlines content).getLastD [] ∈ splitlines content :=
    List.mem_of_getLast?_eq_some hglast
  have hlast2 : pyStrip ((splitlines content).getLast?.getD []) ≠ [] := by
    rw [← List.getLastD_eq_getLast?]
    exact hlast
  have hbody_ne : strip_leading_blank_lines (splitlines content) ≠ [] := by
    rw [strip_leading_blank_lines]
    intro he
    have := List.dropWhile_eq_nil_iff.mp he _ hlastmem
    simp at this
    exact hlast2 this
  have hsuf : strip_leading_blank_lines (splitlines content) <:+
      splitlines content := List.dropWhile_suffix _
  have hbody_last :
      pyStrip ((strip_leading_blank_lines
        (splitlines content)).getLastD []) ≠ [] := by
    have hgl2 : (splitlines content).getLast? =
        (strip_leading_blank_lines (splitlines content)).getLast? :=
      getLast?_of_suffix_any hsuf hbody_ne
    rw [List.getLastD_eq_getLast?, ← hgl2, ← List.getLastD_eq_getLast?]
    exact hlast
  have hbody_head :
      pyStrip ((strip_leading_blank_lines
        (splitlines content)).headD []) ≠ [] := by
    obtain ⟨x, rest, hx⟩ := List.exists_cons_of_ne_nil hbody_ne
    rw [hx]
    exact strip_leading_head_not_blank (splitlines content)
      (by rw [hx]; rfl)
  have hbodybf : ∀ l ∈ strip_leading_blank_lines (splitlines content),
      ∀ c ∈ l, isLineBoundary c = false :=
    fun l hl => splitlines_mem_bf content l (hsuf.subset hl)
  have hbodymk : ∀ l ∈ strip_leading_blank_lines (splitlines content),
      ∀ m ∈ detectorMarkers, strStartsWith (pyStrip l) m.1 = false :=
    fun l hl => hmk l (hsuf.subset hl)
  have hbglast : (strip_leading_blank_lines (splitlines content)).getLast? =
      some ((strip_leading_blank_lines (splitlines content)).getLastD []) := by
    cases hgo : (strip_leading_blank_lines (splitlines content)).getLast? with
    | none => exact absurd (List.getLast?_eq_none_iff.mp hgo) hbody_ne
    | some x =>
      rw [List.getLastD_eq_getLast?, hgo]
      rfl
  have hbglmem := List.mem_of_getLast?_eq_some hbglast
  have hcompose : compose_with_header_block (standardHeaderLine cs ce p)
      (splitlines content) =
      (standardHeaderLine cs ce p ++ '\n' :: '\n' ::
        joinNL (strip_leading_blank_lines (splitlines content))) ++ nl := by
    refine compose_exact (rstripNL_id hnl2) hbody_ne
      ⟨(strip_leading_blank_lines (splitlines content)).getLastD [],
        hbglast, ?_, ?_⟩
    · intro he
      rw [he] at hbody_last
      exact hbody_last rfl
    · intro hm
      have h1 := hbodybf _ hbglmem '\n' hm
      have h2 : isLineBoundary '\n' = true := by decide
      rw [h1] at h2
      cases h2
  constructor
  · exact determine_plain hcs hlines_ne hhead_raw hxml hweb
      (fun l hl => hmk l hl (cs, ce) hdial) hcne
  · rw [hcompose]
    exact determine_second_pass hdial hcs hcs_hd hce_lst hcs_bf hce_bf hp_bf
      hp_strip hp_ne hp_ce hp_F hcs_len hsb hsb_len hmarker hxml hweb
      hbody_ne hbody_head hbody_last hbodybf hbodymk

/-- Witness for `c1_idempotent`: a Python file `x = 1` with path `demo.py`. -/
theorem c1_witness :
    determine_new_content (s ".py") (s "x = 1") (s "#") []
        (standardHeaderLine (s "#") [] (s "demo.py")) =
      some (compose_with_header_block
        (standardHeaderLine (s "#") [] (s "demo.py"))
        (splitlines (s "x = 1"))) ∧
    determine_new_content (s ".py")
        (compose_with_header_block
          (standardHeaderLine (s "#") [] (s "demo.py"))
          (splitlines (s "x = 1"))) (s "#") []
        (standardHeaderLine (s "#") [] (s "demo.py")) =
      some (compose_with_header_block
        (standardHeaderLine (s "#") [] (s "demo.py"))
        (splitlines (s "x = 1"))) :=
  @c1_idempotent (s "#") [] (s "demo.py") (s ".py") (s "x = 1")
    (by decide) (by decide) (by decide) (by decide) (by decide) (by decide)
    (by decide) (by decide) (by decide) (by decide) (by decide) (by decide)
    (by decide)
